import Mathlib

/-!
# golang_elastic: MySQL → Elasticsearch migration pipeline

A shallow embedding of `main.go`: the `Book`/`Author` data model, the JSON
document `json.Marshal` produces for an `Author`, the request `worker` builds,
the per-row `rows.Scan` step, the read query, and the reader/worker-pool run
as a scheduled transition system over an explicit state.

Modelling conventions

* Go `string` values are Lean `String`s, Go `int` is `Int` (no arithmetic is
  performed on ids, so no wrap-around can occur).
* `json.Marshal` is modelled at the level of the JSON value it denotes
  (`Json`), not of its byte rendering.
* `log.Fatal`/`log.Fatalf` write one log line and terminate the process:
  the state records the line and sets `exited`; no thread moves afterwards.
* A run is driven by a schedule, a list of thread ids; a thread that is
  chosen while blocked leaves the state unchanged.
-/

namespace GolangElastic

/-! ## Data model (`main.go` lines 20-34) -/

/-- Go struct `Book`; all three fields are lower-case (unexported). -/
structure Book where
  title : String
  description : String
  publishDate : String
  deriving DecidableEq, Repr

/-- Go struct `Author`. -/
structure Author where
  ID : Int
  Name : String
  Bio : String
  BirthDate : String
  Books : Book
  deriving DecidableEq, Repr

/-- The zero value `Book{}`. -/
def Book.zero : Book := ⟨"", "", ""⟩

/-- The zero value of `Author` (`var authors Author`). -/
def Author.zero : Author := ⟨0, "", "", "", Book.zero⟩

/-! ## `json.Marshal` -/

/-- JSON values that `json.Marshal` can produce for the structs above. -/
inductive Json where
  | num (n : Int)
  | str (s : String)
  | obj (fields : List (String × Json))

/-- One struct field as `encoding/json` sees it through reflection: the Go
field name, the name given by the `json:"..."` tag, and the encoded value. -/
structure StructField where
  name : String
  tag : String
  value : Json

/-- A Go identifier is exported when it starts with an upper-case letter. -/
def isExported (name : String) : Bool :=
  match name.data with
  | [] => false
  | c :: _ => c.isUpper

/-- `encoding/json` encodes a struct as an object holding its exported fields
only, in declaration order, under their tag names; unexported fields are
skipped whatever their tag says. -/
def marshalStruct (fs : List StructField) : Json :=
  Json.obj ((fs.filter (fun f => isExported f.name)).map (fun f => (f.tag, f.value)))

/-- Fields of `Book` with their tags (lines 22-24). -/
def Book.fields (b : Book) : List StructField :=
  [ ⟨"title", "title", Json.str b.title⟩,
    ⟨"description", "description", Json.str b.description⟩,
    ⟨"publishDate", "publish_date", Json.str b.publishDate⟩ ]

/-- Fields of `Author` with their tags (lines 28-32). -/
def Author.fields (a : Author) : List StructField :=
  [ ⟨"ID", "id", Json.num a.ID⟩,
    ⟨"Name", "name", Json.str a.Name⟩,
    ⟨"Bio", "bio", Json.str a.Bio⟩,
    ⟨"BirthDate", "birth_date", Json.str a.BirthDate⟩,
    ⟨"Books", "books", marshalStruct a.Books.fields⟩ ]

/-- `json.Marshal(author)` (line 42): for this struct type it never fails. -/
def jsonMarshal (a : Author) : Except String Json :=
  Except.ok (marshalStruct a.fields)

/-- Field lookup in a JSON object (`none` on a non-object or a missing key). -/
def Json.field (j : Json) (key : String) : Option Json :=
  match j with
  | Json.obj fs => (fs.find? (fun kv => kv.1 == key)).map (fun kv => kv.2)
  | _ => none

/-- The keys of a JSON object. -/
def Json.keys (j : Json) : List String :=
  match j with
  | Json.obj fs => fs.map (fun kv => kv.1)
  | _ => []

/-! ## `fmt.Sprintf("%d", id)` -/

/-- The character of a decimal digit: `'0' + d`. -/
def digitChar (d : Nat) : Char := Char.ofNat (48 + d)

/-- The digit loop of Go's integer formatter: while `u >= 10` emit `u % 10`
in front of what is already there and divide; then emit the last digit.
The first argument bounds the number of iterations. -/
def fmtDigits : Nat → Nat → List Char → List Char
  | 0, u, acc => digitChar (u % 10) :: acc
  | fuel + 1, u, acc =>
    if 10 ≤ u then fmtDigits fuel (u / 10) (digitChar (u % 10) :: acc)
    else digitChar u :: acc

/-- Decimal digits of an unsigned magnitude. -/
def fmtNat (u : Nat) : List Char := fmtDigits u u []

/-- `fmt.Sprintf("%d", i)`: a minus sign for a negative number, then the
digits of the magnitude. -/
def sprintfD (i : Int) : String :=
  if i < 0 then String.mk ('-' :: fmtNat i.natAbs) else String.mk (fmtNat i.natAbs)

/-- Value of a decimal digit character, if it is one. -/
def digitValue (c : Char) : Option Nat :=
  if 48 ≤ c.toNat ∧ c.toNat ≤ 57 then some (c.toNat - 48) else none

/-- Reading of a digit sequence, most significant first, from an accumulator. -/
def readDigits : List Char → Nat → Option Nat
  | [], acc => some acc
  | c :: cs, acc =>
    match digitValue c with
    | some d => readDigits cs (10 * acc + d)
    | none => none

/-- What "the decimal string of `id`" means, read from the string side: the
integer a decimal string denotes, an optional leading minus sign followed by
at least one digit. -/
def decimalValue (s : String) : Option Int :=
  match s.data with
  | [] => none
  | c :: cs =>
    if c = '-' then
      if cs = [] then none else (readDigits cs 0).map (fun (n : Nat) => - Int.ofNat n)
    else (readDigits (c :: cs) 0).map (fun (n : Nat) => Int.ofNat n)

/-! ## The per-row step of the reader (`main.go` lines 122-143) -/

/-- One row of the query result as the driver hands it to `rows.Scan`:
seven columns, each either SQL `NULL` (`none`) or a value that converts to
the type of its destination (an integer for `id`, text for the others). -/
structure Row where
  id : Option Int
  name : Option String
  bio : Option String
  birth_date : Option String
  title : Option String
  description : Option String
  publish_date : Option String
  deriving DecidableEq, Repr

/-- The error of `rows.Scan` on a `NULL` column whose destination is a plain
`*int` or `*string`: "sql: Scan error on column index i, name n: converting
NULL to kind is unsupported". -/
structure ScanError where
  column : Nat
  name : String
  kind : String
  deriving DecidableEq, Repr

/-- Assignment of one column to a `*int` destination. -/
def scanInt (column : Nat) (name : String) (v : Option Int) : Except ScanError Int :=
  match v with
  | some n => Except.ok n
  | none => Except.error ⟨column, name, "int"⟩

/-- Assignment of one column to a `*string` destination. -/
def scanString (column : Nat) (name : String) (v : Option String) : Except ScanError String :=
  match v with
  | some x => Except.ok x
  | none => Except.error ⟨column, name, "string"⟩

/-- `rows.Scan(&authors.ID, ..., &authors.Books.publishDate)` (lines 128-136):
the columns are assigned left to right and the first failure is returned. -/
def scan (r : Row) : Except ScanError Author := do
  let id ← scanInt 0 "id" r.id
  let name ← scanString 1 "name" r.name
  let bio ← scanString 2 "bio" r.bio
  let birthDate ← scanString 3 "birth_date" r.birth_date
  let title ← scanString 4 "title" r.title
  let description ← scanString 5 "description" r.description
  let publishDate ← scanString 6 "publish_date" r.publish_date
  return ⟨id, name, bio, birthDate, ⟨title, description, publishDate⟩⟩

/-- The test `&x == nil` for a field `x` of a declared variable: the address
of such a field is never nil, whatever the field holds. -/
def addrIsNil (_field : String) : Bool := false

/-- Body of the `for rows.Next()` loop up to the send (lines 123-139): the
Record built for a row, or the error that `log.Fatal` reports. -/
def readRow (r : Row) : Except ScanError Author :=
  let authors := Author.zero
  if addrIsNil authors.Books.title || addrIsNil authors.Books.description
      || addrIsNil authors.Books.publishDate then
    Except.ok { authors with Books := Book.zero }
  else
    scan r

/-- Whether the per-row step builds a Record for the row. -/
def decodes (r : Row) : Bool :=
  match readRow r with
  | Except.ok _ => true
  | Except.error _ => false

/-- The Records of the rows that decode. -/
def recordsOf (rows : List Row) : List Author :=
  rows.filterMap (fun r => (readRow r).toOption)

/-! ## The read query (`main.go` lines 98-104) -/

/-- A row of table `authors`. -/
structure AuthorsRow where
  id : Option Int
  name : Option String
  bio : Option String
  birth_date : Option String
  deriving DecidableEq, Repr

/-- A row of table `books`. -/
structure BooksRow where
  author_id : Option Int
  title : Option String
  description : Option String
  publish_date : Option String
  deriving DecidableEq, Repr

/-- SQL `a = b` taken as a condition: true only for two equal non-NULL values. -/
def sqlEq (a b : Option Int) : Bool :=
  match a, b with
  | some x, some y => x == y
  | _, _ => false

/-- The selected columns for an author row joined with a book row. -/
def joinedRow (a : AuthorsRow) (b : BooksRow) : Row :=
  ⟨a.id, a.name, a.bio, a.birth_date, b.title, b.description, b.publish_date⟩

/-- The selected columns for an author row without a matching book row. -/
def unmatchedRow (a : AuthorsRow) : Row :=
  ⟨a.id, a.name, a.bio, a.birth_date, none, none, none⟩

/-- `authors LEFT JOIN books ON authors.id = books.author_id`. -/
def leftJoin (authors : List AuthorsRow) (books : List BooksRow) : List Row :=
  (authors.map (fun a =>
    let ms := books.filter (fun b => sqlEq a.id b.author_id)
    if ms.isEmpty then [unmatchedRow a] else ms.map (joinedRow a))).flatten

/-- The whole query: the left join filtered by `WHERE books.title IS NOT NULL`. -/
def query (authors : List AuthorsRow) (books : List BooksRow) : List Row :=
  (leftJoin authors books).filter (fun r => r.title.isSome)

/-- The join restricted to book rows with a title: one row for each pair of
an author row and a book row with `books.author_id = authors.id` and a
non-NULL `books.title`. -/
def titledJoin (authors : List AuthorsRow) (books : List BooksRow) : List Row :=
  (authors.map (fun a =>
    (books.filter (fun b => sqlEq a.id b.author_id && b.title.isSome)).map
      (joinedRow a))).flatten

/-! ## The worker (`main.go` lines 37-67) -/

/-- The fields of `esapi.IndexRequest` that `worker` sets. -/
structure IndexRequest where
  Index : String
  DocumentID : String
  Body : Json
  Refresh : String

/-- What `req.Do` returns: an error (no response was obtained), or a response
with its `IsError()` flag and `String()` rendering. -/
inductive DoResult where
  | transportErr (err : String)
  | response (isError : Bool) (text : String)
  deriving DecidableEq, Repr

/-- The lines the program writes to the log. -/
inductive LogEntry where
  | marshalFatal (err : String)
  | indexFatal (err : String)
  | errorResponse (worker : Nat) (docId : Int) (res : String)
  | indexed (worker : Nat) (docId : Int)
  | scanFatal (err : ScanError)
  | rowsErrFatal (err : String)
  | allMigrated
  deriving DecidableEq, Repr

/-- What the program is run against: the value of `ELASTICSEARCH_INDEX`, the
marshal step, the index service (its answer to the `n`-th request of the run)
and the error `rows.Err()` reports after the loop, if any. -/
structure Env where
  indexName : String
  marshal : Author → Except String Json
  es : Nat → IndexRequest → DoResult
  rowsErr : Option String

/-- The environment with Go's `json.Marshal` as the marshal step. -/
def goEnv (indexName : String) (es : Nat → IndexRequest → DoResult)
    (rowsErr : Option String) : Env :=
  ⟨indexName, jsonMarshal, es, rowsErr⟩

/-- One request as it went out, with the worker that sent it and what came back. -/
structure Exchange where
  worker : Nat
  request : IndexRequest
  result : DoResult

/-- The request of lines 48-53 for a given body. -/
def mkRequest (indexName : String) (author : Author) (body : Json) : IndexRequest :=
  ⟨indexName, sprintfD author.ID, body, "true"⟩

/-- The request `worker` sends for a Record whose body is Go's `json.Marshal`. -/
def requestOf (indexName : String) (author : Author) : IndexRequest :=
  mkRequest indexName author (marshalStruct author.fields)

/-- Result of one iteration of the worker loop: either `log.Fatalf` was
reached (after a request went out, or before any did), or the outcome was
logged and the loop goes on. -/
inductive Handled where
  | fatal (sent : Option Exchange) (entry : LogEntry)
  | logged (sent : Exchange) (entry : LogEntry)

/-- Body of `for author := range jobs` (lines 41-65) for worker `id`, when
`n` requests have been answered before this one. -/
def workerBody (env : Env) (id : Nat) (n : Nat) (author : Author) : Handled :=
  match env.marshal author with
  | Except.error err => Handled.fatal none (LogEntry.marshalFatal err)
  | Except.ok productJSON =>
    let req := mkRequest env.indexName author productJSON
    match env.es n req with
    | DoResult.transportErr err =>
      Handled.fatal (some ⟨id, req, DoResult.transportErr err⟩) (LogEntry.indexFatal err)
    | DoResult.response isError text =>
      Handled.logged ⟨id, req, DoResult.response isError text⟩
        (if isError then LogEntry.errorResponse id author.ID text
         else LogEntry.indexed id author.ID)

/-- The exchange an iteration performed, if it got as far as sending. -/
def Handled.sent (h : Handled) : Option Exchange :=
  match h with
  | Handled.fatal sent _ => sent
  | Handled.logged sent _ => some sent

/-- `req.Do` returned an error. -/
def isTransportErr (r : DoResult) : Bool :=
  match r with
  | DoResult.transportErr _ => true
  | DoResult.response _ _ => false

/-- A response with `res.IsError()` true: the document was rejected. -/
def isRejected (r : DoResult) : Bool :=
  match r with
  | DoResult.response true _ => true
  | _ => false

/-- A response with `res.IsError()` false. -/
def isAccepted (r : DoResult) : Bool :=
  match r with
  | DoResult.response false _ => true
  | _ => false

/-- The line of line 64: a document was indexed. -/
def LogEntry.isSuccess (e : LogEntry) : Bool :=
  match e with
  | LogEntry.indexed _ _ => true
  | _ => false

/-- The line of line 62: an error response for a document. -/
def LogEntry.isFailure (e : LogEntry) : Bool :=
  match e with
  | LogEntry.errorResponse _ _ _ => true
  | _ => false

/-- The lines written by `log.Fatal`/`log.Fatalf`. -/
def LogEntry.isFatal (e : LogEntry) : Bool :=
  match e with
  | LogEntry.marshalFatal _ => true
  | LogEntry.indexFatal _ => true
  | LogEntry.scanFatal _ => true
  | LogEntry.rowsErrFatal _ => true
  | _ => false

/-- What one worker leaves behind: the requests it sent, its log lines, and
whether it terminated the process. -/
structure WorkerRun where
  trace : List Exchange
  log : List LogEntry
  exited : Bool

/-- The function `worker` run on the sequence of Records it dequeues until
the channel is closed and drained; `n` counts the requests answered so far. -/
def worker (env : Env) (id : Nat) : List Author → Nat → WorkerRun
  | [], _ => ⟨[], [], false⟩
  | author :: rest, n =>
    match workerBody env id n author with
    | Handled.fatal sent entry => ⟨sent.toList, [entry], true⟩
    | Handled.logged sent entry =>
      let r := worker env id rest (n + 1)
      ⟨sent :: r.trace, entry :: r.log, r.exited⟩

/-! ## The run: reader, jobs channel and worker pool (`main.go` lines 110-155) -/

/-- `numWorkers := 5`; also the capacity of the jobs channel. -/
def numWorkers : Nat := 5

/-- Where a worker goroutine stands: about to receive from `jobs`, holding a
Record it received, or returned (`wg.Done()` has run). -/
inductive WorkerPc where
  | recv
  | handle (author : Author)
  | done
  deriving DecidableEq, Repr

/-- Where `main` stands: at `rows.Next()`, at `jobs <- authors` with the
Record built, at `wg.Wait()` (the channel is closed), or past the last line. -/
inductive MainPc where
  | next
  | send (author : Author)
  | wait
  | returned
  deriving DecidableEq, Repr

/-- State of a run. -/
structure State where
  rows : List Row
  mainPc : MainPc
  jobs : List Author
  closed : Bool
  workers : List WorkerPc
  trace : List Exchange
  log : List LogEntry
  exited : Bool

/-- The threads of the program: `main` and the workers `1 .. numWorkers`. -/
inductive Tid where
  | main
  | worker (w : Nat)
  deriving DecidableEq, Repr

/-- The state when the loop over the rows starts: the workers have been
started and the channel is empty. -/
def init (rows : List Row) : State :=
  ⟨rows, MainPc.next, [], false, List.replicate numWorkers WorkerPc.recv, [], [], false⟩

/-- One step of `main`. -/
def stepMain (env : Env) (s : State) : State :=
  match s.mainPc with
  | MainPc.next =>
    match s.rows with
    | r :: rest =>
      match readRow r with
      | Except.error e => { s with log := s.log ++ [LogEntry.scanFatal e], exited := true }
      | Except.ok a => { s with rows := rest, mainPc := MainPc.send a }
    | [] => { s with closed := true, mainPc := MainPc.wait }
  | MainPc.send a =>
    if s.jobs.length < numWorkers then
      { s with jobs := s.jobs ++ [a], mainPc := MainPc.next }
    else s
  | MainPc.wait =>
    if s.workers.all (fun p => p == WorkerPc.done) then
      match env.rowsErr with
      | some e => { s with log := s.log ++ [LogEntry.rowsErrFatal e], exited := true }
      | none => { s with log := s.log ++ [LogEntry.allMigrated], mainPc := MainPc.returned }
    else s
  | MainPc.returned => s

/-- One step of worker `w` (numbered from 1, as in `go worker(w, ...)`). -/
def stepWorker (env : Env) (w : Nat) (s : State) : State :=
  match w with
  | 0 => s
  | i + 1 =>
    match s.workers[i]? with
    | none => s
    | some WorkerPc.recv =>
      match s.jobs with
      | a :: rest => { s with jobs := rest, workers := s.workers.set i (WorkerPc.handle a) }
      | [] => if s.closed then { s with workers := s.workers.set i WorkerPc.done } else s
    | some (WorkerPc.handle a) =>
      match workerBody env w s.trace.length a with
      | Handled.fatal sent entry =>
        { s with trace := s.trace ++ sent.toList, log := s.log ++ [entry], exited := true }
      | Handled.logged sent entry =>
        { s with trace := s.trace ++ [sent], log := s.log ++ [entry],
                 workers := s.workers.set i WorkerPc.recv }
    | some WorkerPc.done => s

/-- One step of the program: the chosen thread moves if it can; nothing moves
once the process has exited or `main` has returned. -/
def step (env : Env) (t : Tid) (s : State) : State :=
  if s.exited || s.mainPc == MainPc.returned then s
  else
    match t with
    | Tid.main => stepMain env s
    | Tid.worker w => stepWorker env w s

/-- The state a schedule leads to. -/
def run (env : Env) (sched : List Tid) (s : State) : State :=
  sched.foldl (fun st t => step env t st) s

/-- The Records held by workers between the receive and the request. -/
def inflight (ws : List WorkerPc) : List Author :=
  ws.filterMap (fun p => match p with
    | WorkerPc.handle a => some a
    | _ => none)

/-- The Record `main` holds between the scan and the send. -/
def pending (pc : MainPc) : List Author :=
  match pc with
  | MainPc.send a => [a]
  | _ => []

/-- Every Record that is still on its way: held by `main`, in the channel,
held by a worker, or yet to be read from the rows. -/
def tokens (s : State) : List Author :=
  pending s.mainPc ++ s.jobs ++ inflight s.workers ++ recordsOf s.rows

/-- Weight of the position of `main` in the progress measure. -/
def mainWeight (pc : MainPc) : Nat :=
  match pc with
  | MainPc.next => 2
  | MainPc.send _ => 5
  | MainPc.wait => 1
  | MainPc.returned => 0

/-- Weight of the position of a worker in the progress measure. -/
def workerWeight (p : WorkerPc) : Nat :=
  match p with
  | WorkerPc.recv => 1
  | WorkerPc.handle _ => 2
  | WorkerPc.done => 0

/-- A bound on the number of moves left: every move of a thread lowers it. -/
def progress (s : State) : Nat :=
  4 * s.rows.length + mainWeight s.mainPc + 2 * s.jobs.length
    + (s.workers.map workerWeight).sum + (if s.exited then 0 else 1)

/-- Facts that hold in every state a schedule can reach from `init rows0`,
whatever the environment. -/
structure Inv (rows0 : List Row) (s : State) : Prop where
  wlen : s.workers.length = numWorkers
  closed_iff : s.closed = true ↔ (s.mainPc = MainPc.wait ∨ s.mainPc = MainPc.returned)
  done_imp : WorkerPc.done ∈ s.workers → s.closed = true ∧ s.jobs = []
  closed_rows : s.closed = true → s.rows = []
  ret_done : s.mainPc = MainPc.returned →
    (∀ p ∈ s.workers, p = WorkerPc.done) ∧ s.exited = false
  migrated_iff : LogEntry.allMigrated ∈ s.log ↔ s.mainPc = MainPc.returned
  decoded : ∃ pre, rows0 = pre ++ s.rows ∧ ∀ r ∈ pre, ∃ a, readRow r = Except.ok a
  jobs_le : s.jobs.length ≤ numWorkers
  succ_count : s.log.countP LogEntry.isSuccess
    = s.trace.countP (fun x => isAccepted x.result)
  fail_count : s.log.countP LogEntry.isFailure
    = s.trace.countP (fun x => isRejected x.result)
  no_fatal : s.exited = false →
    (∀ e ∈ s.log, e.isFatal = false) ∧ (∀ x ∈ s.trace, isTransportErr x.result = false)

/-- Conservation of Records under Go's `json.Marshal`: as long as the process
has not exited, the requests sent so far together with the requests of the
Records still on their way are the requests of the Records of the rows. -/
def Conserved (indexName : String) (rows0 : List Row) (s : State) : Prop :=
  s.exited = false →
    Multiset.ofList (s.trace.map (fun x => x.request))
        + Multiset.map (requestOf indexName) (Multiset.ofList (tokens s))
      = Multiset.map (requestOf indexName) (Multiset.ofList (recordsOf rows0))

/-! ## The index as a document store -/

/-- The index service seen as a store from document identifier to document
body: the documents with their identifiers, in order of creation. -/
abbrev Index := List (String × Json)

/-- Upsert by identifier: replace the document stored under `k`, or add one. -/
def upsert (idx : Index) (k : String) (body : Json) : Index :=
  match idx with
  | [] => [(k, body)]
  | (k', b') :: rest =>
    if k' = k then (k, body) :: rest else (k', b') :: upsert rest k body

/-- Effect of one exchange on the index: an accepted request is an upsert of
its body under its document identifier; anything else leaves the index alone. -/
def applyExchange (idx : Index) (x : Exchange) : Index :=
  match x.result with
  | DoResult.response false _ => upsert idx x.request.DocumentID x.request.Body
  | _ => idx

/-- The index after a run's exchanges, in the order they happened. -/
def applyTrace (idx : Index) (trace : List Exchange) : Index :=
  trace.foldl applyExchange idx

/-- An index service that accepts every request. -/
def acceptAll : Nat → IndexRequest → DoResult :=
  fun _ _ => DoResult.response false "created"

/-! ## Sample inputs -/

/-- A row with all seven columns present. -/
def sampleRow (id : Int) (name : String) (title : String) : Row :=
  ⟨some id, some name, some "bio", some "1970-01-01", some title, some "about",
    some "2001-01-01"⟩

/-- The Record `sampleRow` decodes to. -/
def sampleAuthor (id : Int) (name : String) (title : String) : Author :=
  ⟨id, name, "bio", "1970-01-01", ⟨title, "about", "2001-01-01"⟩⟩

/-- Ten rows with ids 1 to 10. -/
def tenRows : List Row :=
  (List.range 10).map (fun i => sampleRow (Int.ofNat i + 1) "author" "title")

/-- A schedule in which `main` reads and sends one row and worker 1 receives
and handles it, `n` times over; then `main` closes the channel, the five
workers return and `main` finishes. -/
def serialSchedule (n : Nat) : List Tid :=
  (List.replicate n [Tid.main, Tid.main, Tid.worker 1, Tid.worker 1]).flatten
    ++ [Tid.main, Tid.worker 1, Tid.worker 2, Tid.worker 3, Tid.worker 4, Tid.worker 5,
        Tid.main]

/-- A schedule for two rows in which worker 1 receives the first Record and
worker 2 the second, and worker 2 sends its request before worker 1 does. -/
def crossedSchedule : List Tid :=
  [Tid.main, Tid.main, Tid.main, Tid.main, Tid.worker 1, Tid.worker 2, Tid.worker 2,
   Tid.worker 1, Tid.main, Tid.worker 1, Tid.worker 2, Tid.worker 3, Tid.worker 4,
   Tid.worker 5, Tid.main]

/-- An index service that rejects the documents with the given identifiers
and accepts the others. -/
def rejectIds (ids : List String) : Nat → IndexRequest → DoResult :=
  fun _ r =>
    if ids.contains r.DocumentID then DoResult.response true "400 Bad Request"
    else DoResult.response false "201 Created"

/-- An index service that cannot be reached. -/
def unreachableService : Nat → IndexRequest → DoResult :=
  fun _ _ => DoResult.transportErr "connection refused"

/-- Two rows with the same id and different names. -/
def clashingRows : List Row :=
  [sampleRow 1 "first" "title", sampleRow 1 "second" "title"]

/-- Two rows of one author with two books: same id and parent columns. -/
def twoBookRows : List Row :=
  [sampleRow 1 "first" "book a", sampleRow 1 "first" "book b"]

/-- The names stored in an index, document by document. -/
def storedNames (idx : Index) : List (String × Option String) :=
  idx.map (fun kv => (kv.1, match kv.2.field "name" with
    | some (Json.str n) => some n
    | _ => none))

/-- The run over `tenRows` in which the index service rejects documents 3 and 7. -/
def summaryRun : State :=
  run (goEnv "authors" (rejectIds ["3", "7"]) none) (serialSchedule 10) (init tenRows)

/-- The run over one row, up to the point where worker 1 holds its Record,
against an index service that cannot be reached. -/
def outageRun : State :=
  run (goEnv "authors" unreachableService none) [Tid.main, Tid.main, Tid.worker 1]
    (init [sampleRow 1 "first" "title"])

/-- Three authors. -/
def scenarioAuthors : List AuthorsRow :=
  [ ⟨some 1, some "author 1", some "bio", some "1970-01-01"⟩,
    ⟨some 2, some "author 2", some "bio", some "1970-01-01"⟩,
    ⟨some 3, some "author 3", some "bio", some "1970-01-01"⟩ ]

/-- Two books of author 1, one of author 2, none of author 3. -/
def scenarioBooks : List BooksRow :=
  [ ⟨some 1, some "book a", some "about", some "2001-01-01"⟩,
    ⟨some 1, some "book b", some "about", some "2002-01-01"⟩,
    ⟨some 2, some "book c", some "about", some "2003-01-01"⟩ ]

/-! # Theorems -/

/-! ## Decimal rendering of ids -/

theorem digitValue_digitChar (d : Nat) (h : d < 10) : digitValue (digitChar d) = some d := by
  interval_cases d <;> rfl

theorem digitChar_ne_minus (d : Nat) (h : d < 10) : digitChar d ≠ '-' := by
  interval_cases d <;> decide

theorem readDigits_fmtDigits (fuel : Nat) :
    ∀ (u : Nat) (acc : List Char), u ≤ fuel →
      ∃ k, ∀ a, readDigits (fmtDigits fuel u acc) a = readDigits acc (10 ^ k * a + u) := by
  induction fuel with
  | zero =>
    intro u acc hu
    have hu0 : u = 0 := by omega
    subst hu0
    refine ⟨1, fun a => ?_⟩
    simp [fmtDigits, readDigits, digitValue_digitChar]
  | succ fuel ih =>
    intro u acc hu
    by_cases h10 : 10 ≤ u
    · obtain ⟨k, hk⟩ := ih (u / 10) (digitChar (u % 10) :: acc) (by omega)
      refine ⟨k + 1, fun a => ?_⟩
      have hd : digitValue (digitChar (u % 10)) = some (u % 10) :=
        digitValue_digitChar _ (Nat.mod_lt _ (by decide))
      simp only [fmtDigits, if_pos h10, hk, readDigits, hd]
      congr 1
      rw [pow_succ]
      have := Nat.div_add_mod u 10
      nlinarith [Nat.div_add_mod u 10]
    · refine ⟨1, fun a => ?_⟩
      have hd : digitValue (digitChar u) = some u := digitValue_digitChar _ (by omega)
      simp [fmtDigits, h10, readDigits, hd]

theorem readDigits_fmtNat (u : Nat) : readDigits (fmtNat u) 0 = some u := by
  obtain ⟨k, hk⟩ := readDigits_fmtDigits u u [] (le_refl u)
  simpa [fmtNat, readDigits] using hk 0

theorem fmtDigits_head (fuel u : Nat) (acc : List Char) :
    ∃ d rest, d < 10 ∧ fmtDigits fuel u acc = digitChar d :: rest := by
  induction fuel generalizing u acc with
  | zero => exact ⟨u % 10, acc, Nat.mod_lt _ (by decide), rfl⟩
  | succ fuel ih =>
    by_cases h10 : 10 ≤ u
    · simpa [fmtDigits, h10] using ih (u / 10) (digitChar (u % 10) :: acc)
    · exact ⟨u, acc, by omega, by simp [fmtDigits, h10]⟩

theorem decimalValue_sprintfD (i : Int) : decimalValue (sprintfD i) = some i := by
  obtain ⟨d, rest, hd, hrest⟩ := fmtDigits_head i.natAbs i.natAbs []
  have hread := readDigits_fmtNat i.natAbs
  by_cases hneg : i < 0
  · have hne : fmtNat i.natAbs ≠ [] := by simp [fmtNat, hrest]
    simp only [sprintfD, if_pos hneg, decimalValue, if_true, if_neg hne, hread, Option.map_some']
    simp only [Option.map_some', Option.some.injEq, Int.ofNat_eq_coe]
    omega
  · simp only [sprintfD, if_neg hneg, decimalValue, fmtNat, hrest]
    rw [if_neg (digitChar_ne_minus d hd), ← hrest]
    have : readDigits (fmtDigits i.natAbs i.natAbs []) 0 = some i.natAbs := hread
    rw [this]
    simp only [Option.map_some', Option.some.injEq, Int.ofNat_eq_coe]
    omega

theorem sprintfD_injective (i j : Int) (h : sprintfD i = sprintfD j) : i = j := by
  have hi := decimalValue_sprintfD i
  rw [h, decimalValue_sprintfD j] at hi
  exact (Option.some.inj hi).symm

theorem digitChar_eq (d : Nat) (h : d < 10) : digitChar d = Nat.digitChar d := by
  interval_cases d <;> rfl

theorem fmtDigits_eq_toDigitsCore (f2 : Nat) :
    ∀ (f1 u : Nat) (acc : List Char), u ≤ f1 → u < f2 →
      fmtDigits f1 u acc = Nat.toDigitsCore 10 f2 u acc := by
  induction f2 with
  | zero => intro f1 u acc _ h; omega
  | succ f2 ih =>
    intro f1 u acc h1 h2
    have hd : digitChar (u % 10) = Nat.digitChar (u % 10) :=
      digitChar_eq _ (Nat.mod_lt _ (by decide))
    by_cases h10 : 10 ≤ u
    · have hq : u / 10 ≠ 0 := by omega
      cases f1 with
      | zero => omega
      | succ k =>
        simp only [fmtDigits, if_pos h10, Nat.toDigitsCore, if_neg hq, hd]
        exact ih k (u / 10) _ (by omega) (by omega)
    · have hq : u / 10 = 0 := by omega
      have hm : u % 10 = u := by omega
      cases f1 with
      | zero =>
        simp only [fmtDigits, Nat.toDigitsCore, hq, if_true, hd]
      | succ k =>
        simp only [fmtDigits, if_neg h10, Nat.toDigitsCore, hq, if_true]
        rw [← hd, hm]

theorem fmtNat_eq_repr (u : Nat) : String.mk (fmtNat u) = Nat.repr u := by
  simp only [fmtNat, Nat.repr, Nat.toDigits, List.asString]
  rw [fmtDigits_eq_toDigitsCore (u + 1) u u [] (le_refl _) (by omega)]

theorem sprintfD_eq_toString (i : Int) : sprintfD i = toString i := by
  cases i with
  | ofNat n =>
    have h : ¬ (Int.ofNat n < 0) := by simp
    simp only [sprintfD, if_neg h]
    exact fmtNat_eq_repr n
  | negSucc n =>
    have h : Int.negSucc n < 0 := Int.negSucc_lt_zero n
    simp only [sprintfD, if_pos h]
    show String.mk ('-' :: fmtNat (n + 1)) = "-" ++ Nat.repr (n + 1)
    rw [← fmtNat_eq_repr]
    rfl

/-! ## Marshalling, scanning and the request -/

theorem marshalStruct_author (a : Author) :
    marshalStruct a.fields =
      Json.obj [("id", Json.num a.ID), ("name", Json.str a.Name), ("bio", Json.str a.Bio),
        ("birth_date", Json.str a.BirthDate), ("books", Json.obj [])] := by
  rfl

theorem workerBody_goEnv (indexName : String) (es : Nat → IndexRequest → DoResult)
    (rowsErr : Option String) (id n : Nat) (a : Author) :
    workerBody (goEnv indexName es rowsErr) id n a =
      match es n (requestOf indexName a) with
      | DoResult.transportErr err =>
        Handled.fatal (some ⟨id, requestOf indexName a, DoResult.transportErr err⟩)
          (LogEntry.indexFatal err)
      | DoResult.response isError text =>
        Handled.logged ⟨id, requestOf indexName a, DoResult.response isError text⟩
          (if isError then LogEntry.errorResponse id a.ID text else LogEntry.indexed id a.ID) := by
  rfl

theorem worker_goEnv_aux (indexName : String) (es : Nat → IndexRequest → DoResult)
    (rowsErr : Option String) (id : Nat) (hes : ∀ n r, isTransportErr (es n r) = false) :
    ∀ (jobs : List Author) (n : Nat),
      ((worker (goEnv indexName es rowsErr) id jobs n).trace.map (fun x => x.request)
          = jobs.map (requestOf indexName))
      ∧ (worker (goEnv indexName es rowsErr) id jobs n).exited = false
      ∧ (worker (goEnv indexName es rowsErr) id jobs n).log.length = jobs.length
      ∧ ∀ (k : Nat) (a : Author) (isError : Bool) (text : String),
          jobs[k]? = some a →
          es (n + k) (requestOf indexName a) = DoResult.response isError text →
          (worker (goEnv indexName es rowsErr) id jobs n).log[k]?
              = some (if isError then LogEntry.errorResponse id a.ID text
                      else LogEntry.indexed id a.ID) := by
  intro jobs
  induction jobs with
  | nil =>
    intro n
    simp [worker]
  | cons a rest ih =>
    intro n
    obtain ⟨h1, h2, h3, h4⟩ := ih (n + 1)
    have hb := workerBody_goEnv indexName es rowsErr id n a
    have hn := hes n (requestOf indexName a)
    cases hres : es n (requestOf indexName a) with
    | transportErr e => rw [hres] at hn; simp [isTransportErr] at hn
    | response isErr text =>
      rw [hres] at hb
      simp only [] at hb
      simp only [worker, hb, List.map_cons, h1, h2, List.length_cons, h3, true_and]
      intro k b isError text2 hk hr
      cases k with
      | zero =>
        simp only [List.getElem?_cons_zero, Option.some.injEq] at hk
        subst hk
        rw [Nat.add_zero, hres] at hr
        cases hr
        simp
      | succ k =>
        simp only [List.getElem?_cons_succ] at hk ⊢
        exact h4 k b isError text2 hk (by rw [← hr]; congr 1; omega)

/-! ## Invariants of the run -/

theorem inv_init (rows : List Row) : Inv rows (init rows) := by
  refine ⟨?_, ?_, ?_, ?_, ?_, ?_, ?_, ?_, ?_, ?_, ?_⟩
  · simp [init]
  · simp [init]
  · simp [init, numWorkers]
  · simp [init]
  · simp [init]
  · simp [init]
  · exact ⟨[], by simp [init], by simp⟩
  · simp [init, numWorkers]
  · simp [init]
  · simp [init]
  · simp [init]

theorem workerBody_logged_shape (env : Env) (id n : Nat) (a : Author) (x : Exchange)
    (entry : LogEntry) (h : workerBody env id n a = Handled.logged x entry) :
    isTransportErr x.result = false ∧ entry.isFatal = false ∧ entry ≠ LogEntry.allMigrated
      ∧ entry.isSuccess = isAccepted x.result ∧ entry.isFailure = isRejected x.result := by
  unfold workerBody at h
  split at h
  · cases h
  · dsimp only at h
    split at h
    · cases h
    · rename_i isError text _
      cases h
      cases isError <;> simp [isTransportErr, LogEntry.isFatal, LogEntry.isSuccess,
        LogEntry.isFailure, isAccepted, isRejected]

theorem workerBody_fatal_shape (env : Env) (id n : Nat) (a : Author) (sent : Option Exchange)
    (entry : LogEntry) (h : workerBody env id n a = Handled.fatal sent entry) :
    entry ≠ LogEntry.allMigrated ∧ entry.isSuccess = false ∧ entry.isFailure = false
      ∧ ∀ x ∈ sent, isAccepted x.result = false ∧ isRejected x.result = false := by
  unfold workerBody at h
  split at h
  · cases h
    simp [LogEntry.isSuccess, LogEntry.isFailure]
  · dsimp only at h
    split at h
    · cases h
      simp [LogEntry.isSuccess, LogEntry.isFailure, isAccepted, isRejected]
    · cases h

theorem inv_stepMain (env : Env) (rows0 : List Row) (s : State) (h : Inv rows0 s)
    (hex : s.exited = false) : Inv rows0 (stepMain env s) := by
  obtain ⟨h1, h2, h3, h4, h5, h6, h7, h8, h9, h10, h11⟩ := h
  unfold stepMain
  split
  · -- rows.Next()
    rename_i hpc
    split
    · rename_i r rest hrows
      split
      · rename_i e he
        refine ⟨h1, h2, h3, h4, ?_, ?_, h7, h8, ?_, ?_, ?_⟩
        · simp [hpc]
        · simp [hpc]
          simpa [hpc] using h6
        · simpa [LogEntry.isSuccess] using h9
        · simpa [LogEntry.isFailure] using h10
        · simp
      · rename_i a ha
        have hcl : s.closed = false := by
          cases hc : s.closed with
          | false => rfl
          | true => have := h2.mp hc; simp [hpc] at this
        refine ⟨h1, ?_, ?_, ?_, ?_, ?_, ?_, h8, h9, h10, h11⟩
        · simp [hcl]
        · simpa using h3
        · simp [hcl]
        · simp
        · simpa [hpc] using h6
        · obtain ⟨pre, hp1, hp2⟩ := h7
          refine ⟨pre ++ [r], by simp [hp1, hrows], ?_⟩
          intro r2 hr2
          rcases List.mem_append.mp hr2 with hm | hm
          · exact hp2 r2 hm
          · simp at hm; subst hm; exact ⟨a, ha⟩
    · rename_i hrows
      have hcl : s.closed = false := by
        cases hc : s.closed with
        | false => rfl
        | true => have := h2.mp hc; simp [hpc] at this
      refine ⟨h1, ?_, ?_, ?_, ?_, ?_, h7, h8, h9, h10, h11⟩
      · simp
      · intro hd
        have := h3 hd
        simp [hcl] at this
      · simp [hrows]
      · simp
      · simpa [hpc] using h6
  · -- jobs <- authors
    rename_i a hpc
    have hcl : s.closed = false := by
      cases hc : s.closed with
      | false => rfl
      | true => have := h2.mp hc; simp [hpc] at this
    split
    · rename_i hlen
      refine ⟨h1, ?_, ?_, ?_, ?_, ?_, h7, ?_, h9, h10, h11⟩
      · simp [hcl]
      · intro hd
        have := h3 hd
        simp [hcl] at this
      · simp [hcl]
      · simp
      · simpa [hpc] using h6
      · simp only [List.length_append, List.length_singleton]
        omega
    · exact ⟨h1, h2, h3, h4, h5, h6, h7, h8, h9, h10, h11⟩
  · -- wg.Wait()
    rename_i hpc
    have hcl : s.closed = true := h2.mpr (Or.inl hpc)
    split
    · rename_i hall
      split
      · rename_i e he
        refine ⟨h1, h2, h3, h4, ?_, ?_, h7, h8, ?_, ?_, ?_⟩
        · simp [hpc]
        · simpa [hpc] using h6
        · simpa [LogEntry.isSuccess] using h9
        · simpa [LogEntry.isFailure] using h10
        · simp
      · rename_i he
        refine ⟨h1, ?_, h3, h4, ?_, ?_, h7, h8, ?_, ?_, ?_⟩
        · simp [hcl]
        · intro _
          refine ⟨?_, hex⟩
          intro p hp
          have := List.all_eq_true.mp hall p hp
          simpa using this
        · simp
        · simpa [LogEntry.isSuccess] using h9
        · simpa [LogEntry.isFailure] using h10
        · intro hx
          obtain ⟨ha, hb⟩ := h11 hx
          refine ⟨?_, hb⟩
          intro e hm
          rcases List.mem_append.mp hm with hm | hm
          · exact ha e hm
          · simp at hm; subst hm; rfl
    · exact ⟨h1, h2, h3, h4, h5, h6, h7, h8, h9, h10, h11⟩
  · exact ⟨h1, h2, h3, h4, h5, h6, h7, h8, h9, h10, h11⟩

theorem mem_set_cases {α : Type} (l : List α) (i : Nat) (b a : α) (h : a ∈ l.set i b) :
    a ∈ l ∨ a = b :=
  List.mem_or_eq_of_mem_set h

theorem inv_stepWorker (env : Env) (rows0 : List Row) (w : Nat) (s : State) (h : Inv rows0 s)
    (hret : s.mainPc ≠ MainPc.returned) : Inv rows0 (stepWorker env w s) := by
  have h0 := h
  obtain ⟨h1, h2, h3, h4, h5, h6, h7, h8, h9, h10, h11⟩ := h
  unfold stepWorker
  split
  · exact h0
  · rename_i i
    split
    · exact h0
    · -- receive
      rename_i hget
      split
      · rename_i a rest hjobs
        refine ⟨?_, h2, ?_, h4, ?_, h6, h7, ?_, h9, h10, h11⟩
        · simpa using h1
        · intro hd
          rcases mem_set_cases _ _ _ _ hd with hm | hm
          · have := (h3 hm).2
            simp [hjobs] at this
          · cases hm
        · intro hr
          exact absurd hr hret
        · have : s.jobs.length = rest.length + 1 := by simp [hjobs]
          show rest.length ≤ numWorkers
          omega
      · rename_i hjobs
        split
        · rename_i hcl
          refine ⟨?_, h2, ?_, h4, ?_, h6, h7, h8, h9, h10, h11⟩
          · simpa using h1
          · intro _
            exact ⟨hcl, hjobs⟩
          · intro hr
            exact absurd hr hret
        · exact h0
    · -- marshal, request, log
      rename_i a hget
      split
      · rename_i sent entry hb
        obtain ⟨hb1, hb2, hb3, hb4⟩ := workerBody_fatal_shape env _ _ _ _ _ hb
        refine ⟨h1, h2, h3, h4, ?_, ?_, h7, h8, ?_, ?_, ?_⟩
        · intro hr
          exact absurd hr hret
        · show LogEntry.allMigrated ∈ s.log ++ [entry] ↔ _
          rw [← h6]
          simp only [List.mem_append, List.mem_singleton]
          constructor
          · rintro (hm | hm)
            · exact hm
            · exact absurd hm.symm hb1
          · exact Or.inl
        · show (s.log ++ [entry]).countP _ = (s.trace ++ sent.toList).countP _
          rw [List.countP_append, List.countP_append, h9]
          cases sent with
          | none => simp [hb2]
          | some x => simp [hb2, (hb4 x rfl).1]
        · show (s.log ++ [entry]).countP _ = (s.trace ++ sent.toList).countP _
          rw [List.countP_append, List.countP_append, h10]
          cases sent with
          | none => simp [hb3]
          | some x => simp [hb3, (hb4 x rfl).2]
        · simp
      · rename_i x entry hb
        obtain ⟨hb1, hb2, hb3, hb4, hb5⟩ := workerBody_logged_shape env _ _ _ _ _ hb
        refine ⟨?_, h2, ?_, h4, ?_, ?_, h7, h8, ?_, ?_, ?_⟩
        · simpa using h1
        · intro hd
          rcases mem_set_cases _ _ _ _ hd with hm | hm
          · exact h3 hm
          · cases hm
        · intro hr
          exact absurd hr hret
        · show LogEntry.allMigrated ∈ s.log ++ [entry] ↔ _
          rw [← h6]
          simp only [List.mem_append, List.mem_singleton]
          constructor
          · rintro (hm | hm)
            · exact hm
            · exact absurd hm.symm hb3
          · exact Or.inl
        · show (s.log ++ [entry]).countP _ = (s.trace ++ [x]).countP _
          rw [List.countP_append, List.countP_append, h9]
          simp [List.countP_cons, hb4]
        · show (s.log ++ [entry]).countP _ = (s.trace ++ [x]).countP _
          rw [List.countP_append, List.countP_append, h10]
          simp [List.countP_cons, hb5]
        · intro hx
          obtain ⟨ha, hc⟩ := h11 hx
          constructor
          · intro e hm
            rcases List.mem_append.mp hm with hm | hm
            · exact ha e hm
            · simp at hm; subst hm; exact hb2
          · intro y hm
            rcases List.mem_append.mp hm with hm | hm
            · exact hc y hm
            · simp at hm; subst hm; exact hb1
    · exact h0

theorem step_frozen (env : Env) (t : Tid) (s : State)
    (h : s.exited = true ∨ s.mainPc = MainPc.returned) : step env t s = s := by
  unfold step
  rcases h with h | h <;> simp [h]

theorem run_frozen (env : Env) (sched : List Tid) (s : State)
    (h : s.exited = true ∨ s.mainPc = MainPc.returned) : run env sched s = s := by
  induction sched with
  | nil => rfl
  | cons t rest ih =>
    show run env rest (step env t s) = s
    rw [step_frozen env t s h]
    exact ih

theorem inv_step (env : Env) (rows0 : List Row) (t : Tid) (s : State) (h : Inv rows0 s) :
    Inv rows0 (step env t s) := by
  unfold step
  split
  · exact h
  · rename_i hc
    simp only [Bool.or_eq_true, beq_iff_eq, not_or, Bool.not_eq_true] at hc
    cases t with
    | main => exact inv_stepMain env rows0 s h hc.1
    | worker w => exact inv_stepWorker env rows0 w s h hc.2

theorem inv_run (env : Env) (rows0 : List Row) (sched : List Tid) :
    ∀ s, Inv rows0 s → Inv rows0 (run env sched s) := by
  induction sched with
  | nil => intro s h; exact h
  | cons t rest ih =>
    intro s h
    exact ih _ (inv_step env rows0 t s h)

theorem inv_reach (env : Env) (rows : List Row) (sched : List Tid) :
    Inv rows (run env sched (init rows)) :=
  inv_run env rows sched _ (inv_init rows)

/-! ## Conservation of Records -/

theorem inflight_set_handle (ws : List WorkerPc) (i : Nat) (a : Author)
    (h : ws[i]? = some WorkerPc.recv) :
    Multiset.ofList (inflight (ws.set i (WorkerPc.handle a)))
      = a ::ₘ Multiset.ofList (inflight ws) := by
  induction ws generalizing i with
  | nil => simp at h
  | cons p rest ih =>
    cases i with
    | zero =>
      simp only [List.getElem?_cons_zero, Option.some.injEq] at h
      subst h
      simp [inflight]
    | succ i =>
      simp only [List.getElem?_cons_succ] at h
      have := ih i h
      cases p with
      | recv => simpa [inflight] using this
      | done => simpa [inflight] using this
      | handle b =>
        simp only [inflight, List.set_cons_succ, List.filterMap_cons] at this ⊢
        rw [← Multiset.cons_coe, this, ← Multiset.cons_coe, Multiset.cons_swap]

theorem inflight_set_recv (ws : List WorkerPc) (i : Nat) (a : Author)
    (h : ws[i]? = some (WorkerPc.handle a)) :
    Multiset.ofList (inflight ws)
      = a ::ₘ Multiset.ofList (inflight (ws.set i WorkerPc.recv)) := by
  induction ws generalizing i with
  | nil => simp at h
  | cons p rest ih =>
    cases i with
    | zero =>
      simp only [List.getElem?_cons_zero, Option.some.injEq] at h
      subst h
      simp [inflight]
    | succ i =>
      simp only [List.getElem?_cons_succ] at h
      have := ih i h
      cases p with
      | recv => simpa [inflight] using this
      | done => simpa [inflight] using this
      | handle b =>
        simp only [inflight, List.set_cons_succ, List.filterMap_cons] at this ⊢
        rw [← Multiset.cons_coe, this, ← Multiset.cons_coe, Multiset.cons_swap]

theorem inflight_set_done (ws : List WorkerPc) (i : Nat)
    (h : ws[i]? = some WorkerPc.recv) :
    inflight (ws.set i WorkerPc.done) = inflight ws := by
  induction ws generalizing i with
  | nil => simp at h
  | cons p rest ih =>
    cases i with
    | zero =>
      simp only [List.getElem?_cons_zero, Option.some.injEq] at h
      subst h
      simp [inflight]
    | succ i =>
      simp only [List.getElem?_cons_succ] at h
      have := ih i h
      simp only [inflight, List.set_cons_succ, List.filterMap_cons] at this ⊢
      rw [this]

theorem inflight_all_done (ws : List WorkerPc) (h : ∀ p ∈ ws, p = WorkerPc.done) :
    inflight ws = [] := by
  induction ws with
  | nil => rfl
  | cons p rest ih =>
    have hp := h p (List.mem_cons_self _ _)
    subst hp
    simpa [inflight] using ih (fun q hq => h q (List.mem_cons_of_mem _ hq))

theorem recordsOf_cons_ok (r : Row) (rest : List Row) (a : Author)
    (h : readRow r = Except.ok a) : recordsOf (r :: rest) = a :: recordsOf rest := by
  simp [recordsOf, h, Except.toOption]

theorem workerBody_goEnv_logged (indexName : String) (es : Nat → IndexRequest → DoResult)
    (rowsErr : Option String) (id n : Nat) (a : Author) (x : Exchange) (entry : LogEntry)
    (h : workerBody (goEnv indexName es rowsErr) id n a = Handled.logged x entry) :
    x.request = requestOf indexName a ∧ x.worker = id
      ∧ x.result = es n (requestOf indexName a) := by
  rw [workerBody_goEnv] at h
  split at h
  · cases h
  · rename_i hres
    cases h
    exact ⟨rfl, rfl, hres.symm⟩

theorem conserved_init (indexName : String) (rows : List Row) :
    Conserved indexName rows (init rows) := by
  intro _
  simp [init, tokens, pending, inflight, numWorkers]

theorem conserved_step (indexName : String) (es : Nat → IndexRequest → DoResult)
    (rowsErr : Option String) (rows0 : List Row) (t : Tid) (s : State)
    (h : Conserved indexName rows0 s) :
    Conserved indexName rows0 (step (goEnv indexName es rowsErr) t s) := by
  unfold step
  split
  · exact h
  · rename_i hc
    simp only [Bool.or_eq_true, beq_iff_eq, not_or, Bool.not_eq_true] at hc
    have hcons := h hc.1
    cases t with
    | main =>
      show Conserved indexName rows0 (stepMain _ s)
      unfold stepMain
      split
      · rename_i hpc
        split
        · rename_i r rest hrows
          split
          · intro hx; cases hx
          · rename_i a ha
            intro _
            rw [← hcons]
            simp only [tokens, hpc, hrows, pending, recordsOf_cons_ok r rest a ha]
            simp only [← Multiset.coe_add, List.nil_append, List.singleton_append,
              ← Multiset.cons_coe, Multiset.map_add, Multiset.map_cons, Multiset.cons_add,
              Multiset.add_cons]
        · intro _
          rw [← hcons]
          simp only [tokens, hpc, pending]
      · rename_i a hpc
        split
        · intro _
          rw [← hcons]
          simp only [tokens, hpc, pending]
          simp only [← Multiset.coe_add, List.nil_append, List.singleton_append,
            ← Multiset.cons_coe, Multiset.map_add, Multiset.map_cons, Multiset.cons_add,
            Multiset.add_cons, Multiset.coe_nil, add_zero, Multiset.map_zero]
        · exact h
      · rename_i hpc
        split
        · split
          · intro hx; cases hx
          · intro _
            rw [← hcons]
            simp only [tokens, hpc, pending]
        · exact h
      · exact h
    | worker w =>
      show Conserved indexName rows0 (stepWorker _ w s)
      unfold stepWorker
      split
      · exact h
      · rename_i i
        split
        · exact h
        · rename_i hget
          split
          · rename_i a rest hjobs
            intro _
            rw [← hcons]
            simp only [tokens, hjobs]
            simp only [← Multiset.coe_add, ← Multiset.cons_coe, Multiset.map_add,
              Multiset.map_cons, Multiset.cons_add, Multiset.add_cons,
              inflight_set_handle s.workers i a hget]
          · split
            · intro _
              rw [← hcons]
              simp only [tokens, inflight_set_done s.workers i hget]
            · exact h
        · rename_i a hget
          split
          · intro hx; cases hx
          · rename_i x entry hb
            obtain ⟨hreq, -, -⟩ := workerBody_goEnv_logged _ _ _ _ _ _ _ _ hb
            intro _
            rw [← hcons]
            simp only [tokens, List.map_append, List.map_cons, List.map_nil, hreq]
            simp only [← Multiset.coe_add, ← Multiset.cons_coe, Multiset.map_add,
              Multiset.map_cons, Multiset.cons_add, Multiset.add_cons,
              inflight_set_recv s.workers i a hget, Multiset.coe_nil, add_zero]
        · exact h

theorem conserved_run (indexName : String) (es : Nat → IndexRequest → DoResult)
    (rowsErr : Option String) (rows0 : List Row) (sched : List Tid) :
    ∀ s, Conserved indexName rows0 s →
      Conserved indexName rows0 (run (goEnv indexName es rowsErr) sched s) := by
  induction sched with
  | nil => intro s h; exact h
  | cons t rest ih =>
    intro s h
    exact ih _ (conserved_step indexName es rowsErr rows0 t s h)

/-! ## Single moves -/

theorem step_main_scan (env : Env) (s : State) (r : Row) (rest : List Row) (a : Author)
    (hex : s.exited = false) (hpc : s.mainPc = MainPc.next) (hrows : s.rows = r :: rest)
    (hr : readRow r = Except.ok a) :
    step env Tid.main s = { s with rows := rest, mainPc := MainPc.send a } := by
  simp [step, stepMain, hex, hpc, hrows, hr]

theorem step_main_close (env : Env) (s : State)
    (hex : s.exited = false) (hpc : s.mainPc = MainPc.next) (hrows : s.rows = []) :
    step env Tid.main s = { s with closed := true, mainPc := MainPc.wait } := by
  simp [step, stepMain, hex, hpc, hrows]

theorem step_main_send (env : Env) (s : State) (a : Author)
    (hex : s.exited = false) (hpc : s.mainPc = MainPc.send a)
    (hlen : s.jobs.length < numWorkers) :
    step env Tid.main s = { s with jobs := s.jobs ++ [a], mainPc := MainPc.next } := by
  simp [step, stepMain, hex, hpc, hlen]

theorem step_main_return (env : Env) (s : State)
    (hex : s.exited = false) (hpc : s.mainPc = MainPc.wait)
    (hall : ∀ p ∈ s.workers, p = WorkerPc.done) (herr : env.rowsErr = none) :
    step env Tid.main s
      = { s with log := s.log ++ [LogEntry.allMigrated], mainPc := MainPc.returned } := by
  have : (s.workers.all fun p => p == WorkerPc.done) = true := by
    rw [List.all_eq_true]
    intro p hp
    simp [hall p hp]
  simp [step, stepMain, hex, hpc, this, herr]

theorem step_worker_recv (env : Env) (s : State) (i : Nat) (a : Author) (rest : List Author)
    (hex : s.exited = false) (hpc : s.mainPc ≠ MainPc.returned)
    (hget : s.workers[i]? = some WorkerPc.recv) (hjobs : s.jobs = a :: rest) :
    step env (Tid.worker (i + 1)) s
      = { s with jobs := rest, workers := s.workers.set i (WorkerPc.handle a) } := by
  simp [step, stepWorker, hex, hpc, hget, hjobs]

theorem step_worker_done (env : Env) (s : State) (i : Nat)
    (hex : s.exited = false) (hpc : s.mainPc ≠ MainPc.returned)
    (hget : s.workers[i]? = some WorkerPc.recv) (hjobs : s.jobs = [])
    (hcl : s.closed = true) :
    step env (Tid.worker (i + 1)) s = { s with workers := s.workers.set i WorkerPc.done } := by
  simp [step, stepWorker, hex, hpc, hget, hjobs, hcl]

theorem step_worker_logged (env : Env) (s : State) (i : Nat) (a : Author) (x : Exchange)
    (entry : LogEntry) (hex : s.exited = false) (hpc : s.mainPc ≠ MainPc.returned)
    (hget : s.workers[i]? = some (WorkerPc.handle a))
    (hb : workerBody env (i + 1) s.trace.length a = Handled.logged x entry) :
    step env (Tid.worker (i + 1)) s
      = { s with trace := s.trace ++ [x], log := s.log ++ [entry],
                 workers := s.workers.set i WorkerPc.recv } := by
  simp [step, stepWorker, hex, hpc, hget, hb]

theorem step_worker_fatal (env : Env) (s : State) (i : Nat) (a : Author)
    (sent : Option Exchange) (entry : LogEntry)
    (hex : s.exited = false) (hpc : s.mainPc ≠ MainPc.returned)
    (hget : s.workers[i]? = some (WorkerPc.handle a))
    (hb : workerBody env (i + 1) s.trace.length a = Handled.fatal sent entry) :
    step env (Tid.worker (i + 1)) s
      = { s with trace := s.trace ++ sent.toList, log := s.log ++ [entry], exited := true } := by
  simp [step, stepWorker, hex, hpc, hget, hb]

theorem weight_set (ws : List WorkerPc) (i : Nat) (p q : WorkerPc)
    (h : ws[i]? = some p) :
    ((ws.set i q).map workerWeight).sum + workerWeight p
      = (ws.map workerWeight).sum + workerWeight q := by
  induction ws generalizing i with
  | nil => simp at h
  | cons c rest ih =>
    cases i with
    | zero =>
      simp only [List.getElem?_cons_zero, Option.some.injEq] at h
      subst h
      simp only [List.set_cons_zero, List.map_cons, List.sum_cons]
      omega
    | succ i =>
      simp only [List.getElem?_cons_succ] at h
      have := ih i h
      simp only [List.set_cons_succ, List.map_cons, List.sum_cons]
      omega

/-! ## Progress: a run without fatal errors can always be completed -/

theorem live_step (indexName : String) (es : Nat → IndexRequest → DoResult)
    (rows0 : List Row) (s : State)
    (hes : ∀ n r, isTransportErr (es n r) = false)
    (hinv : Inv rows0 s) (hex : s.exited = false)
    (hrows : ∀ r ∈ s.rows, ∃ a, readRow r = Except.ok a)
    (hpc : s.mainPc ≠ MainPc.returned) :
    ∃ t, (step (goEnv indexName es none) t s).exited = false
      ∧ (∀ r ∈ (step (goEnv indexName es none) t s).rows, ∃ a, readRow r = Except.ok a)
      ∧ progress (step (goEnv indexName es none) t s) < progress s := by
  by_cases hA : ∃ (i : Nat) (a : Author), s.workers[i]? = some (WorkerPc.handle a)
  · obtain ⟨i, a, hget⟩ := hA
    have hb := workerBody_goEnv indexName es none (i + 1) s.trace.length a
    have hn := hes s.trace.length (requestOf indexName a)
    cases hres : es s.trace.length (requestOf indexName a) with
    | transportErr e => rw [hres] at hn; simp [isTransportErr] at hn
    | response isErr text =>
      rw [hres] at hb
      simp only [] at hb
      refine ⟨Tid.worker (i + 1), ?_⟩
      rw [step_worker_logged _ s i a _ _ hex hpc hget hb]
      refine ⟨hex, hrows, ?_⟩
      have hw := weight_set s.workers i (WorkerPc.handle a) WorkerPc.recv hget
      simp only [workerWeight] at hw
      simp only [progress, hex]
      omega
  · have hnh : ∀ (i : Nat) (p : WorkerPc), s.workers[i]? = some p → p ≠ WorkerPc.done →
        p = WorkerPc.recv := by
      intro i p hp hd
      cases p with
      | recv => rfl
      | done => exact absurd rfl hd
      | handle a => exact absurd ⟨i, a, hp⟩ hA
    cases hm : s.mainPc with
    | returned => exact absurd hm hpc
    | next =>
      refine ⟨Tid.main, ?_⟩
      cases hr : s.rows with
      | nil =>
        rw [step_main_close _ s hex hm hr]
        refine ⟨hex, by simp [hr], ?_⟩
        simp only [progress, hex, hm, mainWeight]
        omega
      | cons r rest =>
        obtain ⟨a, ha⟩ := hrows r (by simp [hr])
        rw [step_main_scan _ s r rest a hex hm hr ha]
        refine ⟨hex, ?_, ?_⟩
        · intro r2 h2
          exact hrows r2 (by simp [hr]; exact Or.inr h2)
        · simp only [progress, hex, hm, hr, mainWeight, List.length_cons]
          omega
    | send a =>
      by_cases hlen : s.jobs.length < numWorkers
      · refine ⟨Tid.main, ?_⟩
        rw [step_main_send _ s a hex hm hlen]
        refine ⟨hex, hrows, ?_⟩
        simp only [progress, hex, hm, mainWeight, List.length_append, List.length_singleton]
        omega
      · have hcl : s.closed = false := by
          cases hc : s.closed with
          | false => rfl
          | true => have := hinv.closed_iff.mp hc; simp [hm] at this
        cases hj : s.jobs with
        | nil => simp [hj, numWorkers] at hlen
        | cons b rest =>
          have h0 : 0 < s.workers.length := by rw [hinv.wlen]; decide
          have hget : s.workers[0]? = some (s.workers[0]) := List.getElem?_eq_getElem h0
          have hnd : s.workers[0] ≠ WorkerPc.done := by
            intro hd
            have hmem : WorkerPc.done ∈ s.workers := by
              rw [← hd]; exact List.getElem_mem h0
            have := (hinv.done_imp hmem).1
            simp [hcl] at this
          rw [hnh 0 _ hget hnd] at hget
          refine ⟨Tid.worker (0 + 1), ?_⟩
          rw [step_worker_recv _ s 0 b rest hex hpc hget hj]
          refine ⟨hex, hrows, ?_⟩
          have hw := weight_set s.workers 0 WorkerPc.recv (WorkerPc.handle b) hget
          simp only [workerWeight] at hw
          simp only [progress, hex, hj, List.length_cons]
          omega
    | wait =>
      have hcl : s.closed = true := hinv.closed_iff.mpr (Or.inl hm)
      by_cases hall : ∀ p ∈ s.workers, p = WorkerPc.done
      · refine ⟨Tid.main, ?_⟩
        rw [step_main_return _ s hex hm hall rfl]
        refine ⟨hex, hrows, ?_⟩
        simp only [progress, hex, hm, mainWeight]
        omega
      · push_neg at hall
        obtain ⟨p, hp, hpd⟩ := hall
        obtain ⟨i, hi, hpi⟩ := List.getElem_of_mem hp
        have hget : s.workers[i]? = some p := by
          rw [List.getElem?_eq_getElem hi, hpi]
        rw [hnh i p hget hpd] at hget
        refine ⟨Tid.worker (i + 1), ?_⟩
        cases hj : s.jobs with
        | nil =>
          rw [step_worker_done _ s i hex hpc hget hj hcl]
          refine ⟨hex, hrows, ?_⟩
          have hw := weight_set s.workers i WorkerPc.recv WorkerPc.done hget
          simp only [workerWeight] at hw
          simp only [progress, hex, hj]
          omega
        | cons b rest =>
          rw [step_worker_recv _ s i b rest hex hpc hget hj]
          refine ⟨hex, hrows, ?_⟩
          have hw := weight_set s.workers i WorkerPc.recv (WorkerPc.handle b) hget
          simp only [workerWeight] at hw
          simp only [progress, hex, hj, List.length_cons]
          omega

theorem can_complete (indexName : String) (es : Nat → IndexRequest → DoResult)
    (rows0 : List Row) (hes : ∀ n r, isTransportErr (es n r) = false) :
    ∀ (n : Nat) (s : State), progress s ≤ n → Inv rows0 s → s.exited = false →
      (∀ r ∈ s.rows, ∃ a, readRow r = Except.ok a) →
      ∃ sched, (run (goEnv indexName es none) sched s).mainPc = MainPc.returned := by
  intro n
  induction n with
  | zero =>
    intro s hn _ hex _
    simp [progress, hex] at hn
  | succ n ih =>
    intro s hn hinv hex hrows
    by_cases hpc : s.mainPc = MainPc.returned
    · exact ⟨[], hpc⟩
    · obtain ⟨t, h1, h2, h3⟩ := live_step indexName es rows0 s hes hinv hex hrows hpc
      obtain ⟨sched, hs⟩ := ih (step (goEnv indexName es none) t s) (by omega)
        (inv_step _ rows0 t s hinv) h1 h2
      exact ⟨t :: sched, hs⟩

theorem no_exit_step (indexName : String) (es : Nat → IndexRequest → DoResult)
    (t : Tid) (s : State) (hes : ∀ n r, isTransportErr (es n r) = false)
    (hex : s.exited = false) (hrows : ∀ r ∈ s.rows, ∃ a, readRow r = Except.ok a) :
    (step (goEnv indexName es none) t s).exited = false
      ∧ ∀ r ∈ (step (goEnv indexName es none) t s).rows, ∃ a, readRow r = Except.ok a := by
  unfold step
  split
  · exact ⟨hex, hrows⟩
  · cases t with
    | main =>
      show (stepMain _ s).exited = false ∧ ∀ r ∈ (stepMain _ s).rows, _
      unfold stepMain
      split
      · split
        · rename_i r rest hr
          obtain ⟨a, ha⟩ := hrows r (by simp [hr])
          split
          · rename_i e he
            rw [ha] at he
            cases he
          · refine ⟨hex, ?_⟩
            intro r2 h2
            exact hrows r2 (by simp [hr]; exact Or.inr h2)
        · exact ⟨hex, hrows⟩
      · split
        · exact ⟨hex, hrows⟩
        · exact ⟨hex, hrows⟩
      · split
        · split
          · rename_i e he
            simp [goEnv] at he
          · exact ⟨hex, hrows⟩
        · exact ⟨hex, hrows⟩
      · exact ⟨hex, hrows⟩
    | worker w =>
      show (stepWorker _ w s).exited = false ∧ ∀ r ∈ (stepWorker _ w s).rows, _
      unfold stepWorker
      split
      · exact ⟨hex, hrows⟩
      · split
        · exact ⟨hex, hrows⟩
        · split
          · exact ⟨hex, hrows⟩
          · split
            · exact ⟨hex, hrows⟩
            · exact ⟨hex, hrows⟩
        · rename_i i _ a _
          split
          · rename_i sent entry hb
            rw [workerBody_goEnv] at hb
            have hn := hes s.trace.length (requestOf indexName a)
            split at hb
            · rename_i hres
              rw [hres] at hn
              simp [isTransportErr] at hn
            · cases hb
          · exact ⟨hex, hrows⟩
        · exact ⟨hex, hrows⟩

theorem no_exit_run (indexName : String) (es : Nat → IndexRequest → DoResult)
    (hes : ∀ n r, isTransportErr (es n r) = false) (sched : List Tid) :
    ∀ s, s.exited = false → (∀ r ∈ s.rows, ∃ a, readRow r = Except.ok a) →
      (run (goEnv indexName es none) sched s).exited = false
        ∧ ∀ r ∈ (run (goEnv indexName es none) sched s).rows, ∃ a, readRow r = Except.ok a := by
  induction sched with
  | nil => intro s h1 h2; exact ⟨h1, h2⟩
  | cons t rest ih =>
    intro s h1 h2
    obtain ⟨h3, h4⟩ := no_exit_step indexName es t s hes h1 h2
    exact ih _ h3 h4

/-! ## States in which `main` has returned -/

theorem returned_tokens (rows0 : List Row) (s : State) (hinv : Inv rows0 s)
    (hret : s.mainPc = MainPc.returned) :
    tokens s = [] ∧ s.exited = false ∧ ∀ r ∈ rows0, ∃ a, readRow r = Except.ok a := by
  obtain ⟨hall, hex⟩ := hinv.ret_done hret
  have h0 : 0 < s.workers.length := by rw [hinv.wlen]; decide
  have hmem : WorkerPc.done ∈ s.workers := by
    have := hall _ (List.getElem_mem h0)
    rw [← this]
    exact List.getElem_mem h0
  obtain ⟨hcl, hjobs⟩ := hinv.done_imp hmem
  have hrows := hinv.closed_rows hcl
  refine ⟨?_, hex, ?_⟩
  · simp [tokens, hret, pending, hjobs, inflight_all_done s.workers hall, hrows, recordsOf]
  · obtain ⟨pre, hp1, hp2⟩ := hinv.decoded
    rw [hrows, List.append_nil] at hp1
    subst hp1
    exact hp2

theorem returned_requests (indexName : String) (rows0 : List Row) (s : State)
    (hinv : Inv rows0 s) (hc : Conserved indexName rows0 s)
    (hret : s.mainPc = MainPc.returned) :
    (s.trace.map (fun x => x.request)).Perm ((recordsOf rows0).map (requestOf indexName)) := by
  obtain ⟨htok, hex, -⟩ := returned_tokens rows0 s hinv hret
  have := hc hex
  rw [htok] at this
  simp only [Multiset.coe_nil, Multiset.map_zero, add_zero, Multiset.map_coe] at this
  exact Multiset.coe_eq_coe.mp this

theorem recordsOf_all_ok (rows : List Row) (h : ∀ r ∈ rows, ∃ a, readRow r = Except.ok a) :
    (recordsOf rows).length = rows.length
      ∧ rows.map readRow = (recordsOf rows).map Except.ok := by
  induction rows with
  | nil => simp [recordsOf]
  | cons r rest ih =>
    obtain ⟨a, ha⟩ := h r (List.mem_cons_self _ _)
    obtain ⟨h1, h2⟩ := ih (fun q hq => h q (List.mem_cons_of_mem _ hq))
    rw [recordsOf_cons_ok r rest a ha]
    simp [h1, h2, ha]

theorem returned_no_marker (rows0 : List Row) (s : State) (hinv : Inv rows0 s) (i : Nat)
    (a : Author) (hget : s.workers[i]? = some (WorkerPc.handle a)) :
    s.mainPc ≠ MainPc.returned ∧ LogEntry.allMigrated ∉ s.log := by
  have hne : s.mainPc ≠ MainPc.returned := by
    intro hret
    have hi : i < s.workers.length := by
      by_contra hcon
      rw [List.getElem?_eq_none (by omega)] at hget
      cases hget
    have := (hinv.ret_done hret).1 _ (List.getElem_mem hi)
    rw [List.getElem?_eq_getElem hi] at hget
    simp only [Option.some.injEq] at hget
    rw [hget] at this
    cases this
  exact ⟨hne, fun hm => hne (hinv.migrated_iff.mp hm)⟩

/-! ## The index -/

theorem upsert_keys (idx : Index) (k : String) (b : Json) (k2 : String) :
    k2 ∈ (upsert idx k b).map Prod.fst ↔ k2 ∈ idx.map Prod.fst ∨ k2 = k := by
  induction idx with
  | nil => simp [upsert]
  | cons kv rest ih =>
    obtain ⟨k1, b1⟩ := kv
    unfold upsert
    by_cases h : k1 = k
    · subst h
      simp only [if_true, List.map_cons, List.mem_cons]
      tauto
    · simp only [if_neg h, List.map_cons, List.mem_cons, ih]
      tauto

theorem upsert_nodup (idx : Index) (k : String) (b : Json)
    (h : (idx.map Prod.fst).Nodup) : ((upsert idx k b).map Prod.fst).Nodup := by
  induction idx with
  | nil => simp [upsert]
  | cons kv rest ih =>
    obtain ⟨k1, b1⟩ := kv
    simp only [List.map_cons, List.nodup_cons] at h
    unfold upsert
    by_cases hk : k1 = k
    · subst hk
      simpa [List.nodup_cons] using h
    · simp only [if_neg hk, List.map_cons, List.nodup_cons]
      refine ⟨?_, ih h.2⟩
      intro hm
      rcases (upsert_keys rest k b k1).mp hm with h1 | h1
      · exact h.1 h1
      · exact hk h1

theorem upsert_mem_self (idx : Index) (k : String) (b : Json) : (k, b) ∈ upsert idx k b := by
  induction idx with
  | nil => simp [upsert]
  | cons kv rest ih =>
    obtain ⟨k1, b1⟩ := kv
    unfold upsert
    by_cases hk : k1 = k
    · simp [hk]
    · simp only [if_neg hk, List.mem_cons]
      exact Or.inr ih

theorem upsert_mem_other (idx : Index) (k : String) (b : Json) (k2 : String) (b2 : Json)
    (hne : k2 ≠ k) (h : (k2, b2) ∈ idx) : (k2, b2) ∈ upsert idx k b := by
  induction idx with
  | nil => simp at h
  | cons kv rest ih =>
    obtain ⟨k1, b1⟩ := kv
    unfold upsert
    by_cases hk : k1 = k
    · subst hk
      simp only [if_true, List.mem_cons]
      rcases List.mem_cons.mp h with h1 | h1
      · cases h1; exact absurd rfl hne
      · exact Or.inr h1
    · simp only [if_neg hk, List.mem_cons]
      rcases List.mem_cons.mp h with h1 | h1
      · exact Or.inl h1
      · exact Or.inr (ih h1)

theorem upsert_same (idx : Index) (k : String) (b : Json)
    (hnd : (idx.map Prod.fst).Nodup) (h : (k, b) ∈ idx) : upsert idx k b = idx := by
  induction idx with
  | nil => simp at h
  | cons kv rest ih =>
    obtain ⟨k1, b1⟩ := kv
    simp only [List.map_cons, List.nodup_cons] at hnd
    unfold upsert
    by_cases hk : k1 = k
    · subst hk
      simp only [if_true]
      rcases List.mem_cons.mp h with h1 | h1
      · cases h1; rfl
      · exact absurd (List.mem_map_of_mem Prod.fst h1) hnd.1
    · simp only [if_neg hk]
      rcases List.mem_cons.mp h with h1 | h1
      · cases h1; exact absurd rfl hk
      · rw [ih hnd.2 h1]

theorem applyExchange_accepted (idx : Index) (x : Exchange) (h : isAccepted x.result = true) :
    applyExchange idx x = upsert idx x.request.DocumentID x.request.Body := by
  unfold applyExchange
  cases hr : x.result with
  | transportErr e => rw [hr] at h; simp [isAccepted] at h
  | response isErr text =>
    cases isErr with
    | true => rw [hr] at h; simp [isAccepted] at h
    | false => rfl

theorem applyTrace_keys (trace : List Exchange)
    (hacc : ∀ x ∈ trace, isAccepted x.result = true) :
    ∀ (idx : Index), (idx.map Prod.fst).Nodup →
      ((applyTrace idx trace).map Prod.fst).Nodup
        ∧ ∀ k, k ∈ (applyTrace idx trace).map Prod.fst
            ↔ k ∈ idx.map Prod.fst ∨ ∃ x ∈ trace, k = x.request.DocumentID := by
  induction trace with
  | nil => intro idx h; simp [applyTrace, h]
  | cons x rest ih =>
    intro idx h
    have hx := applyExchange_accepted idx x (hacc x (List.mem_cons_self _ _))
    obtain ⟨h1, h2⟩ := ih (fun y hy => hacc y (List.mem_cons_of_mem _ hy))
      (applyExchange idx x) (by rw [hx]; exact upsert_nodup idx _ _ h)
    refine ⟨h1, ?_⟩
    intro k
    have := h2 k
    simp only [applyTrace, List.foldl_cons] at this ⊢
    rw [this, hx, upsert_keys]
    simp only [List.mem_cons, exists_eq_or_imp]
    tauto

theorem applyTrace_keeps (trace : List Exchange)
    (hacc : ∀ x ∈ trace, isAccepted x.result = true) (k : String) (b : Json)
    (hsame : ∀ x ∈ trace, x.request.DocumentID = k → x.request.Body = b) :
    ∀ (idx : Index), (k, b) ∈ idx → (k, b) ∈ applyTrace idx trace := by
  induction trace with
  | nil => intro idx h; exact h
  | cons x rest ih =>
    intro idx h
    have hx := applyExchange_accepted idx x (hacc x (List.mem_cons_self _ _))
    simp only [applyTrace, List.foldl_cons]
    apply ih (fun y hy => hacc y (List.mem_cons_of_mem _ hy))
      (fun y hy => hsame y (List.mem_cons_of_mem _ hy))
    rw [hx]
    by_cases hk : x.request.DocumentID = k
    · have hb := hsame x (List.mem_cons_self _ _) hk
      rw [hk, hb]
      exact upsert_mem_self idx k b
    · exact upsert_mem_other idx _ _ k b (fun h2 => hk h2.symm) h

theorem applyTrace_holds (trace : List Exchange)
    (hacc : ∀ x ∈ trace, isAccepted x.result = true)
    (hcons : ∀ x ∈ trace, ∀ y ∈ trace, x.request.DocumentID = y.request.DocumentID →
      x.request.Body = y.request.Body) :
    ∀ (idx : Index), ∀ x ∈ trace,
      (x.request.DocumentID, x.request.Body) ∈ applyTrace idx trace := by
  induction trace with
  | nil => intro idx x hx; simp at hx
  | cons y rest ih =>
    intro idx x hx
    have hy := applyExchange_accepted idx y (hacc y (List.mem_cons_self _ _))
    have hacc2 : ∀ z ∈ rest, isAccepted z.result = true :=
      fun z hz => hacc z (List.mem_cons_of_mem _ hz)
    rcases List.mem_cons.mp hx with h1 | h1
    · subst h1
      simp only [applyTrace, List.foldl_cons]
      apply applyTrace_keeps rest hacc2
      · intro z hz hk
        exact hcons z (List.mem_cons_of_mem _ hz) x (List.mem_cons_self _ _) hk
      · rw [hy]
        exact upsert_mem_self idx _ _
    · simp only [applyTrace, List.foldl_cons]
      exact ih hacc2 (fun a ha b hb => hcons a (List.mem_cons_of_mem _ ha) b
        (List.mem_cons_of_mem _ hb)) _ x h1

theorem applyTrace_unchanged (trace : List Exchange)
    (hacc : ∀ x ∈ trace, isAccepted x.result = true) (idx : Index)
    (hnd : (idx.map Prod.fst).Nodup)
    (hin : ∀ x ∈ trace, (x.request.DocumentID, x.request.Body) ∈ idx) :
    applyTrace idx trace = idx := by
  induction trace with
  | nil => rfl
  | cons x rest ih =>
    have hx := applyExchange_accepted idx x (hacc x (List.mem_cons_self _ _))
    simp only [applyTrace, List.foldl_cons]
    rw [hx, upsert_same idx _ _ hnd (hin x (List.mem_cons_self _ _))]
    exact ih (fun y hy => hacc y (List.mem_cons_of_mem _ hy))
      (fun y hy => hin y (List.mem_cons_of_mem _ hy))

/-! ## Further helpers -/

theorem decodes_iff (r : Row) : decodes r = true ↔ ∃ a, readRow r = Except.ok a := by
  unfold decodes
  cases h : readRow r with
  | ok a => simp
  | error e => simp

theorem workerBody_result (env : Env) (id n : Nat) (a : Author) (x : Exchange)
    (h : (workerBody env id n a).sent = some x) : ∃ r, x.result = env.es n r := by
  unfold workerBody at h
  split at h
  · simp [Handled.sent] at h
  · dsimp only at h
    split at h
    · rename_i hres
      simp only [Handled.sent, Option.some.injEq] at h
      subst h
      exact ⟨_, hres.symm⟩
    · rename_i hres
      simp only [Handled.sent, Option.some.injEq] at h
      subst h
      exact ⟨_, hres.symm⟩

theorem trace_results_step (env : Env) (P : DoResult → Prop) (hP : ∀ n r, P (env.es n r))
    (t : Tid) (s : State) (h : ∀ x ∈ s.trace, P x.result) :
    ∀ x ∈ (step env t s).trace, P x.result := by
  unfold step
  split
  · exact h
  · cases t with
    | main =>
      show ∀ x ∈ (stepMain env s).trace, P x.result
      unfold stepMain
      repeat' split
      all_goals exact h
    | worker w =>
      show ∀ x ∈ (stepWorker env w s).trace, P x.result
      unfold stepWorker
      split
      · exact h
      · split
        · exact h
        · repeat' split
          all_goals exact h
        · rename_i i _ a _
          split
          · rename_i sent entry hb
            intro x hx
            rcases List.mem_append.mp hx with hm | hm
            · exact h x hm
            · cases sent with
              | none => simp at hm
              | some y =>
                simp only [Option.toList, List.mem_singleton] at hm
                subst hm
                obtain ⟨r, hr⟩ := workerBody_result env _ _ a x (by rw [hb]; rfl)
                rw [hr]
                exact hP _ _
          · rename_i y entry hb
            intro x hx
            rcases List.mem_append.mp hx with hm | hm
            · exact h x hm
            · simp only [List.mem_singleton] at hm
              subst hm
              obtain ⟨r, hr⟩ := workerBody_result env _ _ a x (by rw [hb]; rfl)
              rw [hr]
              exact hP _ _
        · exact h

theorem trace_results_run (env : Env) (P : DoResult → Prop) (hP : ∀ n r, P (env.es n r))
    (sched : List Tid) :
    ∀ s, (∀ x ∈ s.trace, P x.result) → ∀ x ∈ (run env sched s).trace, P x.result := by
  induction sched with
  | nil => intro s h; exact h
  | cons t rest ih =>
    intro s h
    exact ih _ (trace_results_step env P hP t s h)

theorem count_accepted_rejected (trace : List Exchange)
    (h : ∀ x ∈ trace, isTransportErr x.result = false) :
    trace.countP (fun x => isAccepted x.result) + trace.countP (fun x => isRejected x.result)
      = trace.length := by
  induction trace with
  | nil => rfl
  | cons x rest ih =>
    have hx := h x (List.mem_cons_self _ _)
    have := ih (fun y hy => h y (List.mem_cons_of_mem _ hy))
    cases hr : x.result with
    | transportErr e => rw [hr] at hx; simp [isTransportErr] at hx
    | response isErr text =>
      have ha : isAccepted x.result = !isErr := by rw [hr]; cases isErr <;> rfl
      have hj : isRejected x.result = isErr := by rw [hr]; cases isErr <;> rfl
      simp only [List.countP_cons, ha, hj, List.length_cons]
      cases isErr <;> simp <;> omega

theorem query_eq_titledJoin (authors : List AuthorsRow) (books : List BooksRow) :
    query authors books = titledJoin authors books := by
  unfold query leftJoin titledJoin
  induction authors with
  | nil => rfl
  | cons a rest ih =>
    simp only [List.map_cons, List.flatten_cons, List.filter_append, ih]
    congr 1
    by_cases hm : (books.filter (fun b => sqlEq a.id b.author_id)).isEmpty = true
    · have hnil : books.filter (fun b => sqlEq a.id b.author_id) = [] :=
        List.isEmpty_iff.mp hm
      have hnil2 : books.filter (fun b => sqlEq a.id b.author_id && b.title.isSome) = [] := by
        rw [List.filter_eq_nil_iff] at hnil ⊢
        intro b hb
        have := hnil b hb
        simp [this]
      simp [hm, hnil2, unmatchedRow]
    · simp only [hm, if_false, Bool.false_eq_true]
      rw [List.filter_map, List.filter_filter]
      congr 1
      apply List.filter_congr
      intro b _
      simp [joinedRow, Bool.and_comm]

theorem step_progress (env : Env) (t : Tid) (s : State) :
    step env t s = s ∨ progress (step env t s) < progress s := by
  unfold step
  split
  · exact Or.inl rfl
  · rename_i hc
    simp only [Bool.or_eq_true, beq_iff_eq, not_or, Bool.not_eq_true] at hc
    obtain ⟨hex, hret⟩ := hc
    cases t with
    | main =>
      show stepMain env s = s ∨ progress (stepMain env s) < progress s
      unfold stepMain
      split
      · rename_i hpc
        split
        · rename_i r rest hrows
          split
          · right
            simp only [progress, hex, hpc, hrows]
            simp
          · right
            simp only [progress, hex, hpc, hrows, mainWeight, List.length_cons]
            omega
        · right
          simp only [progress, hex, hpc, mainWeight]
          omega
      · rename_i a hpc
        split
        · right
          simp only [progress, hex, hpc, mainWeight, List.length_append, List.length_singleton]
          omega
        · exact Or.inl rfl
      · rename_i hpc
        split
        · split
          · right
            simp only [progress, hex, hpc]
            simp
          · right
            simp only [progress, hex, hpc, mainWeight]
            omega
        · exact Or.inl rfl
      · exact Or.inl rfl
    | worker w =>
      show stepWorker env w s = s ∨ progress (stepWorker env w s) < progress s
      unfold stepWorker
      split
      · exact Or.inl rfl
      · rename_i i
        split
        · exact Or.inl rfl
        · rename_i hget
          split
          · rename_i a rest hjobs
            right
            have hw := weight_set s.workers i WorkerPc.recv (WorkerPc.handle a) hget
            simp only [workerWeight] at hw
            simp only [progress, hex, hjobs, List.length_cons]
            omega
          · split
            · right
              have hw := weight_set s.workers i WorkerPc.recv WorkerPc.done hget
              simp only [workerWeight] at hw
              simp only [progress, hex]
              omega
            · exact Or.inl rfl
        · rename_i a hget
          split
          · right
            simp only [progress, hex]
            simp
          · right
            have hw := weight_set s.workers i (WorkerPc.handle a) WorkerPc.recv hget
            simp only [workerWeight] at hw
            simp only [progress, hex]
            omega
        · exact Or.inl rfl

theorem query_rows_have_title (authors : List AuthorsRow) (books : List BooksRow) :
    ∀ r ∈ query authors books, r.title.isSome = true := by
  intro r hr
  exact (List.mem_filter.mp hr).2

theorem goEnv_marshal_ok (indexName : String) (es : Nat → IndexRequest → DoResult)
    (rowsErr : Option String) (a : Author) :
    (goEnv indexName es rowsErr).marshal a = Except.ok (marshalStruct a.fields) :=
  rfl

/-! ## The claims -/

/-- C1 (what the code does): for every Author the body `json.Marshal` builds
has the fields `id`, `name`, `bio`, `birth_date` and a `books` object with no
field at all, since the three fields of `Book` are unexported; the title,
description and publish date of the child never reach the request body. -/
theorem marshal_omits_book_fields (indexName : String) (a : Author) :
    jsonMarshal a
        = Except.ok (Json.obj [("id", Json.num a.ID), ("name", Json.str a.Name),
            ("bio", Json.str a.Bio), ("birth_date", Json.str a.BirthDate),
            ("books", Json.obj [])])
      ∧ ((requestOf indexName a).Body.field "books").map Json.keys = some []
      ∧ ((requestOf indexName
            (sampleAuthor 1 "first" "title")).Body.field "books").bind
          (fun books => books.field "title") = none :=
  ⟨rfl, rfl, rfl⟩

/-- C3: when no response is a transport failure, a worker that dequeues the
Records `jobs` sends exactly the requests of these Records, one each and in
dequeue order, and returns normally; the `k`-th Record gets the `k`-th log
line, an error line with the worker and document id when its response is an
error response and a success line otherwise. -/
theorem worker_one_request_per_record (indexName : String)
    (es : Nat → IndexRequest → DoResult) (rowsErr : Option String) (id : Nat)
    (jobs : List Author) (hes : ∀ n r, isTransportErr (es n r) = false) :
    ((worker (goEnv indexName es rowsErr) id jobs 0).trace.map (fun x => x.request)
        = jobs.map (requestOf indexName))
      ∧ (worker (goEnv indexName es rowsErr) id jobs 0).exited = false
      ∧ (worker (goEnv indexName es rowsErr) id jobs 0).log.length = jobs.length
      ∧ ∀ (k : Nat) (a : Author) (isError : Bool) (text : String),
          jobs[k]? = some a →
          es k (requestOf indexName a) = DoResult.response isError text →
          (worker (goEnv indexName es rowsErr) id jobs 0).log[k]?
              = some (if isError then LogEntry.errorResponse id a.ID text
                      else LogEntry.indexed id a.ID) := by
  obtain ⟨h1, h2, h3, h4⟩ := worker_goEnv_aux indexName es rowsErr id hes jobs 0
  refine ⟨h1, h2, h3, ?_⟩
  intro k a isError text hk hr
  exact h4 k a isError text hk (by rw [Nat.zero_add]; exact hr)

/-- Witness for C3: three Records, the second one rejected. -/
theorem worker_one_request_per_record_witness :
    (∀ n r, isTransportErr (rejectIds ["2"] n r) = false)
      ∧ ((worker (goEnv "authors" (rejectIds ["2"]) none) 1
            [sampleAuthor 1 "first" "t", sampleAuthor 2 "second" "t",
             sampleAuthor 3 "third" "t"] 0).trace.map (fun x => x.request.DocumentID)
          = ["1", "2", "3"])
      ∧ (worker (goEnv "authors" (rejectIds ["2"]) none) 1
            [sampleAuthor 1 "first" "t", sampleAuthor 2 "second" "t",
             sampleAuthor 3 "third" "t"] 0).log
          = [LogEntry.indexed 1 1, LogEntry.errorResponse 1 2 "400 Bad Request",
             LogEntry.indexed 1 3] := by
  have hes : ∀ n r, isTransportErr (rejectIds ["2"] n r) = false := by
    intro n r
    unfold rejectIds
    split <;> rfl
  have h := worker_one_request_per_record "authors" (rejectIds ["2"]) none 1
    [sampleAuthor 1 "first" "t", sampleAuthor 2 "second" "t", sampleAuthor 3 "third" "t"] hes
  refine ⟨hes, ?_, by decide⟩
  have h1 := congrArg (List.map (fun r : IndexRequest => r.DocumentID)) h.1
  simp only [List.map_map] at h1
  rw [show (fun x : Exchange => x.request.DocumentID)
      = (fun r : IndexRequest => r.DocumentID) ∘ (fun x : Exchange => x.request) from rfl, h1]
  decide

/-- C5: the request a worker builds for a Record has the document identifier
`fmt.Sprintf("%d", id)`, which is the standard decimal rendering of the id;
read as a decimal numeral this string is the id again, for every integer id,
so two Records have the same document identifier exactly when their ids are
equal. -/
theorem document_id_is_decimal_id (indexName : String) (es : Nat → IndexRequest → DoResult)
    (rowsErr : Option String) (id n : Nat) (a b : Author) :
    ((workerBody (goEnv indexName es rowsErr) id n a).sent.map
        (fun x => x.request.DocumentID)) = some (sprintfD a.ID)
      ∧ (requestOf indexName a).DocumentID = sprintfD a.ID
      ∧ sprintfD a.ID = toString a.ID
      ∧ decimalValue (requestOf indexName a).DocumentID = some a.ID
      ∧ ((requestOf indexName a).DocumentID = (requestOf indexName b).DocumentID
          ↔ a.ID = b.ID) := by
  refine ⟨?_, rfl, sprintfD_eq_toString a.ID, decimalValue_sprintfD a.ID, ?_⟩
  · rw [workerBody_goEnv]
    split <;> rfl
  · constructor
    · intro h
      exact sprintfD_injective _ _ h
    · intro h
      show sprintfD a.ID = sprintfD b.ID
      rw [h]

/-- C4: in a reachable state in which worker `i + 1` holds a Record and the
index service answers its request with a transport error, the worker's move
sends that request, logs the fatal line and ends the process: whatever is
scheduled afterwards the state stays as it is, so no further request is sent
by any worker, and the line "All authors migrated to Elasticsearch" is not in
the log and never gets there. -/
theorem transport_failure_aborts_run (env : Env) (rows : List Row) (sched : List Tid)
    (s : State) (i : Nat) (a : Author) (body : Json) (err : String)
    (hs : s = run env sched (init rows))
    (hex : s.exited = false)
    (hget : s.workers[i]? = some (WorkerPc.handle a))
    (hm : env.marshal a = Except.ok body)
    (he : env.es s.trace.length (mkRequest env.indexName a body) = DoResult.transportErr err) :
    (step env (Tid.worker (i + 1)) s).trace
        = s.trace ++ [⟨i + 1, mkRequest env.indexName a body, DoResult.transportErr err⟩]
      ∧ (step env (Tid.worker (i + 1)) s).log = s.log ++ [LogEntry.indexFatal err]
      ∧ (step env (Tid.worker (i + 1)) s).exited = true
      ∧ ∀ later : List Tid,
          run env later (step env (Tid.worker (i + 1)) s) = step env (Tid.worker (i + 1)) s
          ∧ (run env later (step env (Tid.worker (i + 1)) s)).trace
              = s.trace ++ [⟨i + 1, mkRequest env.indexName a body, DoResult.transportErr err⟩]
          ∧ LogEntry.allMigrated ∉ (run env later (step env (Tid.worker (i + 1)) s)).log
          ∧ (run env later (step env (Tid.worker (i + 1)) s)).mainPc ≠ MainPc.returned := by
  have hinv : Inv rows s := by rw [hs]; exact inv_reach env rows sched
  obtain ⟨hne, hnm⟩ := returned_no_marker rows s hinv i a hget
  have hb : workerBody env (i + 1) s.trace.length a
      = Handled.fatal (some ⟨i + 1, mkRequest env.indexName a body, DoResult.transportErr err⟩)
          (LogEntry.indexFatal err) := by
    simp only [workerBody, hm, he]
  have hstep := step_worker_fatal env s i a _ _ hex hne hget hb
  have hfro : ∀ later : List Tid,
      run env later (step env (Tid.worker (i + 1)) s) = step env (Tid.worker (i + 1)) s := by
    intro later
    exact run_frozen env later _ (Or.inl (by rw [hstep]))
  refine ⟨by rw [hstep]; rfl, by rw [hstep], by rw [hstep], ?_⟩
  intro later
  rw [hfro later, hstep]
  refine ⟨rfl, rfl, ?_, hne⟩
  show LogEntry.allMigrated ∉ s.log ++ [LogEntry.indexFatal err]
  simp [hnm]

/-- Witness for C4: one row, worker 1 holds its Record, the index service
cannot be reached. -/
theorem transport_failure_aborts_run_witness :
    outageRun.exited = false
      ∧ (step (goEnv "authors" unreachableService none) (Tid.worker 1) outageRun).exited = true
      ∧ ((run (goEnv "authors" unreachableService none) (serialSchedule 1)
            (step (goEnv "authors" unreachableService none) (Tid.worker 1) outageRun)).trace.map
          (fun x => x.request.DocumentID)) = ["1"]
      ∧ LogEntry.allMigrated ∉
          (run (goEnv "authors" unreachableService none) (serialSchedule 1)
            (step (goEnv "authors" unreachableService none) (Tid.worker 1) outageRun)).log := by
  have h := transport_failure_aborts_run (goEnv "authors" unreachableService none)
    [sampleRow 1 "first" "title"] [Tid.main, Tid.main, Tid.worker 1] outageRun 0
    (sampleAuthor 1 "first" "title") (marshalStruct (sampleAuthor 1 "first" "title").fields)
    "connection refused" rfl (by decide) (by decide) rfl rfl
  obtain ⟨-, -, h3, h4⟩ := h
  obtain ⟨-, h5, h6, -⟩ := h4 (serialSchedule 1)
  refine ⟨by decide, h3, ?_, h6⟩
  rw [h5]
  decide

/-- C6: for every schedule of `main` and the workers that brings `main` to
its last line, every row was decoded into one Record, and the requests sent
by all workers together are, up to order, exactly the requests of these
Records: none is missing and none was sent twice. -/
theorem each_record_requested_once (indexName : String)
    (es : Nat → IndexRequest → DoResult) (rowsErr : Option String) (rows : List Row)
    (sched : List Tid) (s : State)
    (hs : s = run (goEnv indexName es rowsErr) sched (init rows))
    (hret : s.mainPc = MainPc.returned) :
    rows.map readRow = (recordsOf rows).map Except.ok
      ∧ (recordsOf rows).length = rows.length
      ∧ (s.trace.map (fun x => x.request)).Perm ((recordsOf rows).map (requestOf indexName))
      ∧ s.jobs = [] ∧ inflight s.workers = [] := by
  have hinv : Inv rows s := by rw [hs]; exact inv_reach _ rows sched
  have hc : Conserved indexName rows s := by
    rw [hs]
    exact conserved_run indexName es rowsErr rows sched _ (conserved_init indexName rows)
  obtain ⟨htok, -, hdec⟩ := returned_tokens rows s hinv hret
  obtain ⟨h1, h2⟩ := recordsOf_all_ok rows hdec
  refine ⟨h2, h1, returned_requests indexName rows s hinv hc hret, ?_, ?_⟩
  · simp only [tokens, List.append_eq_nil] at htok
    exact htok.1.1.2
  · simp only [tokens, List.append_eq_nil] at htok
    exact htok.1.2

/-- Witness for C6: two rows, with the second request sent before the first. -/
theorem each_record_requested_once_witness :
    (run (goEnv "authors" acceptAll none) crossedSchedule
        (init [sampleRow 1 "first" "a", sampleRow 2 "second" "b"])).mainPc = MainPc.returned
      ∧ ((run (goEnv "authors" acceptAll none) crossedSchedule
          (init [sampleRow 1 "first" "a", sampleRow 2 "second" "b"])).trace.map
            (fun x => x.request)).Perm
          ((recordsOf [sampleRow 1 "first" "a", sampleRow 2 "second" "b"]).map
            (requestOf "authors")) :=
  ⟨by decide,
   (each_record_requested_once "authors" acceptAll none
      [sampleRow 1 "first" "a", sampleRow 2 "second" "b"] crossedSchedule _ rfl
      (by decide)).2.2.1⟩

/-- C7: over rows that all decode, with an index service that never fails
at transport level and no iteration error, every reachable state of the run
can be continued to the end, a state in which no thread can move is the
end, and every move lowers the bound `progress`, so a run ends after at most
that many moves; at the end the process has not exited, the log holds the
success line and no fatal line, one request was sent per row, and the log
holds one outcome line per row: as many error lines as responses were error
responses and success lines for all the others. -/
theorem run_summary (indexName : String) (es : Nat → IndexRequest → DoResult)
    (rows : List Row) (sched : List Tid) (s : State)
    (hs : s = run (goEnv indexName es none) sched (init rows))
    (hrows : ∀ r ∈ rows, decodes r = true)
    (hes : ∀ n r, isTransportErr (es n r) = false) :
    (∃ later, (run (goEnv indexName es none) later s).mainPc = MainPc.returned)
      ∧ ((∀ t, step (goEnv indexName es none) t s = s) → s.mainPc = MainPc.returned)
      ∧ (∀ t, step (goEnv indexName es none) t s = s
          ∨ progress (step (goEnv indexName es none) t s) < progress s)
      ∧ (s.mainPc = MainPc.returned →
          s.exited = false
          ∧ LogEntry.allMigrated ∈ s.log
          ∧ (∀ e ∈ s.log, e.isFatal = false)
          ∧ s.trace.length = rows.length
          ∧ s.log.countP LogEntry.isSuccess + s.log.countP LogEntry.isFailure = rows.length
          ∧ s.log.countP LogEntry.isFailure = s.trace.countP (fun x => isRejected x.result)
          ∧ s.log.countP LogEntry.isSuccess
              = rows.length - s.trace.countP (fun x => isRejected x.result)) := by
  have hinv : Inv rows s := by rw [hs]; exact inv_reach _ rows sched
  have hrows0 : ∀ r ∈ (init rows).rows, ∃ a, readRow r = Except.ok a := by
    intro r hr
    exact (decodes_iff r).mp (hrows r hr)
  obtain ⟨hex, hrows1⟩ := no_exit_run indexName es hes sched (init rows) rfl hrows0
  rw [← hs] at hex hrows1
  refine ⟨?_, ?_, ?_, ?_⟩
  · exact can_complete indexName es rows hes (progress s) s (le_refl _) hinv hex hrows1
  · intro hstuck
    by_contra hne
    obtain ⟨t, -, -, hlt⟩ := live_step indexName es rows s hes hinv hex hrows1 hne
    rw [hstuck t] at hlt
    exact absurd hlt (lt_irrefl _)
  · intro t
    exact step_progress _ t s
  · intro hret
    have hc : Conserved indexName rows s := by
      rw [hs]
      exact conserved_run indexName es none rows sched _ (conserved_init indexName rows)
    have hperm := returned_requests indexName rows s hinv hc hret
    obtain ⟨-, -, hdec⟩ := returned_tokens rows s hinv hret
    have hlen : s.trace.length = rows.length := by
      have := hperm.length_eq
      simp only [List.length_map] at this
      rw [this, (recordsOf_all_ok rows hdec).1]
    obtain ⟨hnf, hnt⟩ := hinv.no_fatal hex
    have hsum := count_accepted_rejected s.trace hnt
    have h9 := hinv.succ_count
    have h10 := hinv.fail_count
    refine ⟨hex, hinv.migrated_iff.mpr hret, hnf, hlen, ?_, h10, ?_⟩
    · omega
    · omega

set_option maxRecDepth 100000 in
/-- Witness for C7: ten rows, documents 3 and 7 rejected: the run ends with
the success line, eight success lines and two error lines. -/
theorem run_summary_witness :
    (∀ r ∈ tenRows, decodes r = true)
      ∧ summaryRun.mainPc = MainPc.returned
      ∧ summaryRun.trace.countP (fun x => isRejected x.result) = 2
      ∧ LogEntry.allMigrated ∈ summaryRun.log
      ∧ summaryRun.log.countP LogEntry.isSuccess = 8
      ∧ summaryRun.log.countP LogEntry.isFailure = 2 := by
  have hes : ∀ n r, isTransportErr (rejectIds ["3", "7"] n r) = false := by
    intro n r
    unfold rejectIds
    split <;> rfl
  have hrows : ∀ r ∈ tenRows, decodes r = true := by decide
  have hret : summaryRun.mainPc = MainPc.returned := by decide
  have hk : summaryRun.trace.countP (fun x => isRejected x.result) = 2 := by decide
  have h := (run_summary "authors" (rejectIds ["3", "7"]) tenRows (serialSchedule 10)
    summaryRun rfl hrows hes).2.2.2 hret
  obtain ⟨-, h2, -, -, -, h6, h7⟩ := h
  rw [hk] at h6 h7
  exact ⟨hrows, hret, hk, h2, h7, h6⟩

theorem requestOf_congr (indexName : String) (a b : Author) (h1 : a.ID = b.ID)
    (h2 : a.Name = b.Name) (h3 : a.Bio = b.Bio) (h4 : a.BirthDate = b.BirthDate) :
    requestOf indexName a = requestOf indexName b := by
  simp only [requestOf, mkRequest, marshalStruct_author, h1, h2, h3, h4]

theorem trace_request_origin (indexName : String) (rows : List Row) (s : State)
    (hperm : (s.trace.map (fun x => x.request)).Perm
      ((recordsOf rows).map (requestOf indexName)))
    (x : Exchange) (hx : x ∈ s.trace) :
    ∃ a ∈ recordsOf rows, x.request = requestOf indexName a := by
  have hm : x.request ∈ s.trace.map (fun x => x.request) := List.mem_map_of_mem _ hx
  obtain ⟨a, ha, hreq⟩ := List.mem_map.mp (hperm.mem_iff.mp hm)
  exact ⟨a, ha, hreq.symm⟩

/-- C8 (amended): when rows with the same id agree on name, bio and birth
date and every upsert is accepted, then for every pair of complete runs over
the same rows, whatever their schedules, applying the second run's requests
to the index the first run left changes nothing; that index has no two
documents with the same identifier, and its identifiers are those it had
before together with the decimal ids of the rows. -/
theorem rerun_leaves_index_unchanged (indexName : String)
    (es1 es2 : Nat → IndexRequest → DoResult) (err1 err2 : Option String)
    (rows : List Row) (sched1 sched2 : List Tid) (s1 s2 : State) (idx0 : Index)
    (hs1 : s1 = run (goEnv indexName es1 err1) sched1 (init rows))
    (hs2 : s2 = run (goEnv indexName es2 err2) sched2 (init rows))
    (hacc1 : ∀ n r, isAccepted (es1 n r) = true)
    (hacc2 : ∀ n r, isAccepted (es2 n r) = true)
    (hkey : ∀ a ∈ recordsOf rows, ∀ b ∈ recordsOf rows, a.ID = b.ID →
      a.Name = b.Name ∧ a.Bio = b.Bio ∧ a.BirthDate = b.BirthDate)
    (hret1 : s1.mainPc = MainPc.returned) (hret2 : s2.mainPc = MainPc.returned)
    (hnd : (idx0.map Prod.fst).Nodup) :
    applyTrace (applyTrace idx0 s1.trace) s2.trace = applyTrace idx0 s1.trace
      ∧ ((applyTrace idx0 s1.trace).map Prod.fst).Nodup
      ∧ ∀ k, k ∈ (applyTrace idx0 s1.trace).map Prod.fst
          ↔ k ∈ idx0.map Prod.fst ∨ ∃ a ∈ recordsOf rows, k = sprintfD a.ID := by
  have hinv1 : Inv rows s1 := by rw [hs1]; exact inv_reach _ rows sched1
  have hinv2 : Inv rows s2 := by rw [hs2]; exact inv_reach _ rows sched2
  have hc1 : Conserved indexName rows s1 := by
    rw [hs1]
    exact conserved_run indexName es1 err1 rows sched1 _ (conserved_init indexName rows)
  have hc2 : Conserved indexName rows s2 := by
    rw [hs2]
    exact conserved_run indexName es2 err2 rows sched2 _ (conserved_init indexName rows)
  have hp1 := returned_requests indexName rows s1 hinv1 hc1 hret1
  have hp2 := returned_requests indexName rows s2 hinv2 hc2 hret2
  have ha1 : ∀ x ∈ s1.trace, isAccepted x.result = true := by
    rw [hs1]
    exact trace_results_run (goEnv indexName es1 err1) (fun r => isAccepted r = true) hacc1
      sched1 (init rows) (by simp [init])
  have ha2 : ∀ x ∈ s2.trace, isAccepted x.result = true := by
    rw [hs2]
    exact trace_results_run (goEnv indexName es2 err2) (fun r => isAccepted r = true) hacc2
      sched2 (init rows) (by simp [init])
  have hsame : ∀ a ∈ recordsOf rows, ∀ b ∈ recordsOf rows,
      (requestOf indexName a).DocumentID = (requestOf indexName b).DocumentID →
      requestOf indexName a = requestOf indexName b := by
    intro a ha b hb hid
    have hid2 : a.ID = b.ID := sprintfD_injective _ _ hid
    obtain ⟨h2, h3, h4⟩ := hkey a ha b hb hid2
    exact requestOf_congr indexName a b hid2 h2 h3 h4
  have hcons1 : ∀ x ∈ s1.trace, ∀ y ∈ s1.trace,
      x.request.DocumentID = y.request.DocumentID → x.request.Body = y.request.Body := by
    intro x hx y hy hid
    obtain ⟨a, ha, hxa⟩ := trace_request_origin indexName rows s1 hp1 x hx
    obtain ⟨b, hb, hyb⟩ := trace_request_origin indexName rows s1 hp1 y hy
    rw [hxa, hyb] at hid ⊢
    rw [hsame a ha b hb hid]
  obtain ⟨hk1, hk2⟩ := applyTrace_keys s1.trace ha1 idx0 hnd
  refine ⟨?_, hk1, ?_⟩
  · apply applyTrace_unchanged s2.trace ha2 _ hk1
    intro x hx
    have hm : x.request ∈ s2.trace.map (fun x => x.request) := List.mem_map_of_mem _ hx
    have hm1 : x.request ∈ s1.trace.map (fun x => x.request) :=
      hp1.mem_iff.mpr (hp2.mem_iff.mp hm)
    obtain ⟨y, hy, hyx⟩ := List.mem_map.mp hm1
    have := applyTrace_holds s1.trace ha1 hcons1 idx0 y hy
    rw [hyx] at this
    exact this
  · intro k
    rw [hk2 k]
    constructor
    · rintro (h | ⟨x, hx, hkx⟩)
      · exact Or.inl h
      · obtain ⟨a, ha, hxa⟩ := trace_request_origin indexName rows s1 hp1 x hx
        exact Or.inr ⟨a, ha, by rw [hkx, hxa]; rfl⟩
    · rintro (h | ⟨a, ha, hka⟩)
      · exact Or.inl h
      · have hm : requestOf indexName a ∈ s1.trace.map (fun x => x.request) :=
          hp1.mem_iff.mpr (List.mem_map_of_mem _ ha)
        obtain ⟨y, hy, hyx⟩ := List.mem_map.mp hm
        exact Or.inr ⟨y, hy, by rw [hka, hyx]; rfl⟩

/-- Witness for C8: the two rows of one author with two books, first run in
row order, second run with the requests crossed: the index is unchanged and
holds one document, under identifier 1. -/
theorem rerun_leaves_index_unchanged_witness :
    (run (goEnv "authors" acceptAll none) (serialSchedule 2) (init twoBookRows)).mainPc
        = MainPc.returned
      ∧ (run (goEnv "authors" acceptAll none) crossedSchedule (init twoBookRows)).mainPc
        = MainPc.returned
      ∧ applyTrace
          (applyTrace []
            (run (goEnv "authors" acceptAll none) (serialSchedule 2) (init twoBookRows)).trace)
          (run (goEnv "authors" acceptAll none) crossedSchedule (init twoBookRows)).trace
        = applyTrace []
            (run (goEnv "authors" acceptAll none) (serialSchedule 2) (init twoBookRows)).trace
      ∧ (applyTrace []
            (run (goEnv "authors" acceptAll none) (serialSchedule 2)
              (init twoBookRows)).trace).map Prod.fst = ["1"] := by
  have h := rerun_leaves_index_unchanged "authors" acceptAll acceptAll none none twoBookRows
    (serialSchedule 2) crossedSchedule _ _ [] rfl rfl (fun _ _ => rfl) (fun _ _ => rfl)
    (by decide) (by decide) (by decide) (by simp)
  exact ⟨by decide, by decide, h.1, by decide⟩

/-- C8, counterexample: two rows with the same id and different names, every
upsert accepted. The first run sends the requests in row order, the second
run sends them crossed; both runs finish, and the second run changes the
index the first one left. -/
theorem rerun_can_change_index :
    (run (goEnv "authors" acceptAll none) (serialSchedule 2) (init clashingRows)).mainPc
        = MainPc.returned
      ∧ (run (goEnv "authors" acceptAll none) crossedSchedule (init clashingRows)).mainPc
        = MainPc.returned
      ∧ applyTrace
          (applyTrace []
            (run (goEnv "authors" acceptAll none) (serialSchedule 2) (init clashingRows)).trace)
          (run (goEnv "authors" acceptAll none) crossedSchedule (init clashingRows)).trace
        ≠ applyTrace []
            (run (goEnv "authors" acceptAll none) (serialSchedule 2)
              (init clashingRows)).trace := by
  refine ⟨by decide, by decide, ?_⟩
  intro h
  have h2 := congrArg storedNames h
  revert h2
  decide

/-- C9 (amended): the query returns one row for each pair of an author row
and a book row with `books.author_id = authors.id` and a non-NULL title, so
an author without a book row contributes no row; for three authors with two,
one and no books it returns three rows, three Records are built, and every
complete run over them sends three requests. -/
theorem query_returns_titled_pairs (authors : List AuthorsRow) (books : List BooksRow)
    (a : AuthorsRow) (indexName : String) (es : Nat → IndexRequest → DoResult)
    (rowsErr : Option String) (sched : List Tid) :
    query authors books = titledJoin authors books
      ∧ ((∀ b ∈ books, sqlEq a.id b.author_id = false) → query [a] books = [])
      ∧ (query scenarioAuthors scenarioBooks).length = 3
      ∧ (recordsOf (query scenarioAuthors scenarioBooks)).length = 3
      ∧ ((run (goEnv indexName es rowsErr) sched
            (init (query scenarioAuthors scenarioBooks))).mainPc = MainPc.returned →
          (run (goEnv indexName es rowsErr) sched
            (init (query scenarioAuthors scenarioBooks))).trace.length = 3) := by
  refine ⟨query_eq_titledJoin authors books, ?_, by decide, by decide, ?_⟩
  · intro hno
    rw [query_eq_titledJoin]
    have : books.filter (fun b => sqlEq a.id b.author_id && b.title.isSome) = [] := by
      rw [List.filter_eq_nil_iff]
      intro b hb
      simp [hno b hb]
    simp [titledJoin, this]
  · intro hret
    have hinv := inv_reach (goEnv indexName es rowsErr)
      (query scenarioAuthors scenarioBooks) sched
    have hc := conserved_run indexName es rowsErr (query scenarioAuthors scenarioBooks) sched _
      (conserved_init indexName (query scenarioAuthors scenarioBooks))
    have hperm := returned_requests indexName _ _ hinv hc hret
    have hlen := hperm.length_eq
    simp only [List.length_map] at hlen
    rw [hlen]
    decide

/-- Witness for C9: the third author of the scenario has no book and gets no
row; the serial run over the query result sends three requests. -/
theorem query_returns_titled_pairs_witness :
    query [⟨some 3, some "author 3", some "bio", some "1970-01-01"⟩] scenarioBooks = []
      ∧ (run (goEnv "authors" acceptAll none) (serialSchedule 3)
          (init (query scenarioAuthors scenarioBooks))).trace.length = 3 := by
  have h := query_returns_titled_pairs scenarioAuthors scenarioBooks
    ⟨some 3, some "author 3", some "bio", some "1970-01-01"⟩ "authors" acceptAll none
    (serialSchedule 3)
  exact ⟨h.2.1 (by decide), h.2.2.2.2 (by decide)⟩

/-- C9, counterexample: for three authors with two, one and no books the
query returns three rows, not four, and none of them is for author 3. -/
theorem query_drops_childless_author :
    (query scenarioAuthors scenarioBooks).length = 3
      ∧ (query scenarioAuthors scenarioBooks).length ≠ 4
      ∧ ¬ ∃ r ∈ query scenarioAuthors scenarioBooks, r.id = some 3 := by
  decide

end GolangElastic
